import Mathlib

/-
  Verification development for the pr-generator repository.

  The repository consists of three Python files:
    client.py        command line client: jira placeholder resolution and
                     file cleanup (write_pr_description, clean_pr_description_file)
    main.py          service variant: commit collection against the upstream
                     remote, prefix normalization, numbered prompt listing,
                     retry loop around the LLM call
    pr_mpc_server.py service variant: commit collection via plain git log,
                     prompt construction in batch order, server side filtering

  Text is modelled as List Char.  Python string operations used by the code
  (split, strip, startswith, substring membership, replace) are given
  executable Lean counterparts below, and the functions of the repository are
  translated on top of them.
-/

namespace PRGen

/-- Text of the embedded program: a Python string as a list of characters. -/
abbrev Str := List Char

/-- Conversion from Lean string literals. -/
def str (s : String) : Str := s.data

/-- Python whitespace for str.strip and company. -/
def pyWs (c : Char) : Bool :=
  c = ' ' || c = '\t' || c = '\n' || c = '\r' || c = '\x0b' || c = '\x0c'

/-- Python str.lower on one character (ASCII, which is all the code needs). -/
def lowChar (c : Char) : Char := c.toLower

/-- Python str.lower. -/
def lower (s : Str) : Str := s.map lowChar

/-- Python startswith: p is a prefix of s. -/
def hasPre : Str → Str → Bool
  | [], _ => true
  | _ :: _, [] => false
  | a :: as, b :: bs => a = b && hasPre as bs

/-- Leading whitespace removed: the first half of Python str.strip. -/
def lTrim (s : Str) : Str := s.dropWhile pyWs

/-- Trailing whitespace removed: the second half of Python str.strip. -/
def rTrim (s : Str) : Str := (s.reverse.dropWhile pyWs).reverse

/-- Python str.strip. -/
def pyStrip (s : Str) : Str := rTrim (lTrim s)

/-- Number of positions at which p occurs in s (p nonempty throughout the
    development, so the count is 0 exactly when p is not a substring). -/
def countOcc (p : Str) : Str → Nat
  | [] => if hasPre p [] then 1 else 0
  | c :: rest => (if hasPre p (c :: rest) then 1 else 0) + countOcc p rest

/-- Python substring membership, the operator in. -/
def subStr (p s : Str) : Bool := decide (0 < countOcc p s)

/-- Case insensitive substring test, modelling re.IGNORECASE search for a
    plain lowercase literal pattern. -/
def subStrCI (p s : Str) : Bool := subStr p (lower s)

/-- Python s.split over the newline character: n newlines give n+1 parts. -/
def splitOnNl : Str → List Str
  | [] => [[]]
  | c :: rest =>
    if c = '\n' then [] :: splitOnNl rest
    else
      match splitOnNl rest with
      | [] => [[c]]
      | l :: ls => (c :: l) :: ls

/-- Rejoining with newlines. -/
def joinNl : List Str → Str
  | [] => []
  | [l] => l
  | l :: ls => l ++ '\n' :: joinNl ls

/-- Python str.splitlines for newline separated text: like splitOnNl but a
    trailing newline produces no trailing empty part, and the empty string
    has no lines. -/
def splitLines (s : Str) : List Str :=
  if s.getLast? = some '\n' then (splitOnNl s).dropLast
  else if s = [] then [] else splitOnNl s

/-- Python file readlines on the text of a file: lines keep their newline. -/
def linesKeepNl : Str → List Str
  | [] => []
  | c :: rest =>
    if c = '\n' then ['\n'] :: linesKeepNl rest
    else
      match linesKeepNl rest with
      | [] => [[c]]
      | l :: ls => (c :: l) :: ls

/-- Python list.insert: insert at the given index, clamped to the length. -/
def insertAt : Nat → α → List α → List α
  | 0, a, l => a :: l
  | _ + 1, a, [] => [a]
  | n + 1, a, x :: xs => x :: insertAt n a xs

/-- Worker of replaceAll, structurally recursive on a fuel argument that is
    kept at least the length of the text. -/
def replaceAllF (p r : Str) : Nat → Str → Str
  | 0, s => s
  | fuel + 1, s =>
    match s with
    | [] => []
    | c :: rest =>
      if p ≠ [] ∧ hasPre p (c :: rest) then
        r ++ replaceAllF p r fuel ((c :: rest).drop p.length)
      else
        c :: replaceAllF p r fuel rest

/-- Python str.replace: every occurrence of p replaced by r, scanning left to
    right without overlap.  An empty p is treated as matching nowhere (the
    code only ever replaces nonempty patterns). -/
def replaceAll (p r : Str) (s : Str) : Str := replaceAllF p r s.length s

/-! ## client.py -/

/-- The forbidden content test of clean_pr_description_file: whether the
    regex of commit or commits or diff or changes: or a triple backtick
    fence, compiled with IGNORECASE, finds a match in the line.  The
    optional s in the regex adds nothing to matchability, so the test is a
    case insensitive substring test for the four literals. -/
def forbiddenLine (l : Str) : Bool :=
  subStrCI (str "commit") l || subStrCI (str "diff") l ||
  subStrCI (str "changes:") l || subStrCI (str "```") l

/-- The truncation loop of clean_pr_description_file: at the first matching
    line the list is cut down to the lines before it. -/
def truncAt (lines : List Str) : List Str :=
  match lines.findIdx? forbiddenLine with
  | some i => lines.take i
  | none => lines

/-- The test line.strip() == '' of the trailing blank removal. -/
def isBlankLine (l : Str) : Bool := (pyStrip l).isEmpty

/-- The trailing blank line removal loop of clean_pr_description_file. -/
def dropTrailBlank (ls : List Str) : List Str :=
  (ls.reverse.dropWhile isBlankLine).reverse

/-- The four recognized template section labels of clean_pr_description_file. -/
def tplSections : List Str :=
  [str "Request review criteria:", str "Self checklist",
   str "If you have UI changes:", str "After the PR is posted & before it merges:"]

/-- Whether any template section label occurs in the joined line text. -/
def hasTplSection (text : Str) : Bool := tplSections.any (fun sec => subStr sec text)

/-- clean_pr_description_file of client.py on the text of the output file.
    The template argument carries the content of the template file when a
    path was given and the file exists, and nothing otherwise. -/
def cleanFile (content : Str) (tpl : Option Str) : Str :=
  let lines0 := linesKeepNl content
  let lines1 := truncAt lines0
  let lines2 := dropTrailBlank lines1
  let lines3 :=
    match tpl with
    | some t => if hasTplSection lines2.flatten then lines2 else lines2 ++ ['\n' :: t]
    | none => lines2
  lines3.flatten

/-- The bracketed jira placeholder the model is told to emit. -/
def jiraPh (t : Str) : Str := '[' :: (t ++ [']'])

/-- The canonical jira line. -/
def jiraCanon (t : Str) : Str := str "Jira ticket: " ++ t

/-- The Description heading test of write_pr_description. -/
def isDescHeading (l : Str) : Bool := hasPre (str "## description") (lower (pyStrip l))

/-- The line scan of write_pr_description: the first line carrying the
    placeholder has it replaced by the canonical line, the first line
    carrying the canonical line is kept, later lines carrying either form
    are dropped, and all other lines pass through.  Returns the kept lines
    and the final jira_handled flag. -/
def jiraScan (ph canon : Str) : List Str → Bool → List Str × Bool
  | [], handled => ([], handled)
  | l :: ls, handled =>
    if subStr ph l then
      if handled then jiraScan ph canon ls true
      else
        let rest := jiraScan ph canon ls true
        (replaceAll ph canon l :: rest.1, rest.2)
    else if subStr canon l then
      if handled then jiraScan ph canon ls true
      else
        let rest := jiraScan ph canon ls true
        (l :: rest.1, rest.2)
    else
      let rest := jiraScan ph canon ls handled
      (l :: rest.1, rest.2)

/-- The jira resolution step of write_pr_description for a provided ticket:
    scan the lines, and when neither form was found insert the canonical
    line after the first Description heading, or at the very top without
    one. -/
def jiraResolve (t : Str) (desc : Str) : Str :=
  let ph := jiraPh t
  let canon := jiraCanon t
  let lines := splitLines desc
  let descIdx := lines.findIdx? isDescHeading
  let scanned := jiraScan ph canon lines false
  let newLines :=
    if scanned.2 then scanned.1
    else
      match descIdx with
      | some i => insertAt (i + 1) canon scanned.1
      | none => insertAt 0 canon scanned.1
  joinNl newLines

/-- write_pr_description: jira resolution when a ticket was given, then the
    file cleanup on the written text. -/
def writePrDescription (desc : Str) (t : Option Str) (tpl : Option Str) : Str :=
  let processed :=
    match t with
    | some tick => jiraResolve tick desc
    | none => desc
  cleanFile processed tpl

/-! ## pr_mpc_server.py -/

/-- Python endswith. -/
def hasSuf (p s : Str) : Bool := hasPre p.reverse s.reverse

/-- The anchored template comment regex of pr_mpc_server searched against a
    stripped line: an html comment opener, anything, then the closer, the
    whole line.  Length at least eight keeps opener and closer disjoint. -/
def isTplComment (l : Str) : Bool :=
  hasPre (str "<!---") l && hasSuf (str "-->") l && decide (8 ≤ l.length)

/-- The forbidden content test of pr_mpc_server generate_pr_description:
    commit or commits or diff or a fence, IGNORECASE, and no changes: label. -/
def serverForbidden (l : Str) : Bool :=
  subStrCI (str "commit") l || subStrCI (str "diff") l || subStrCI (str "```") l

/-- Worker of the final cleanup regex of pr_mpc_server: the first argument
    counts the newlines of the pending run, and a finished run of length k
    is emitted as min k 2 newlines, exactly the effect of the greedy
    substitution of three or more newlines by two. -/
def collapseAux : Nat → Str → Str
  | n, [] => List.replicate (min n 2) '\n'
  | n, c :: rest =>
    if c = '\n' then collapseAux (n + 1) rest
    else List.replicate (min n 2) '\n' ++ c :: collapseAux 0 rest

/-- The final cleanup regex of pr_mpc_server: every run of three or more
    newlines replaced, greedily, by exactly two. -/
def collapse (s : Str) : Str := collapseAux 0 s

/-- The server side post processing of pr_mpc_server generate_pr_description
    on the raw model output: template comment lines removed, truncation at
    the first forbidden line, newline collapsing, and a final strip. -/
def serverSanitize (s : Str) : Str :=
  let lines := splitOnNl s
  let cleaned := lines.filter (fun l => !isTplComment (pyStrip l))
  let s1 := joinNl cleaned
  let lines2 := splitOnNl s1
  let kept := lines2.takeWhile (fun l => !serverForbidden l)
  let s2 := joinNl kept
  pyStrip (collapse s2)

instance {ε α : Type} [DecidableEq ε] [DecidableEq α] : DecidableEq (Except ε α) :=
  fun x y =>
  match x, y with
  | Except.ok a, Except.ok b =>
    if h : a = b then isTrue (h ▸ rfl) else isFalse (fun hc => h (by injection hc))
  | Except.error a, Except.error b =>
    if h : a = b then isTrue (h ▸ rfl) else isFalse (fun hc => h (by injection hc))
  | Except.ok _, Except.error _ => isFalse (fun hc => Except.noConfusion hc)
  | Except.error _, Except.ok _ => isFalse (fun hc => Except.noConfusion hc)

/-- A parsed commit of pr_mpc_server get_commits. -/
structure CommitD where
  hash : Str
  subject : Str
  body : Str
deriving DecidableEq

/-- commit_text of pr_mpc_server generate_pr_description: the subjects in
    batch order joined by newlines. -/
def serverCommitText (commits : List CommitD) : Str :=
  joinNl (commits.map (fun c => c.subject))

/-- line.split on the pipe with at most two splits, unpacked into three
    fields; fewer than two pipes raise a ValueError, modelled as none. -/
def parsePipe (line : Str) : Option CommitD :=
  if line.count '|' < 2 then none
  else
    let h := line.takeWhile (· ≠ '|')
    let rest := (line.dropWhile (· ≠ '|')).tail
    let s := rest.takeWhile (· ≠ '|')
    let b := (rest.dropWhile (· ≠ '|')).tail
    some ⟨h, s, b⟩

/-- The observable git state pr_mpc_server get_commits reads: the output of
    the log command as a function of the requested commit bound. -/
structure GitServer where
  logOut : Option Nat → Str

/-- get_commits of pr_mpc_server: plain git log output parsed line by line.
    The remote argument is accepted by the code and never used.  A parse
    failure surfaces as the 400 ValueError path. -/
def getCommitsServer (g : GitServer) (n : Option Nat) (remote : Str) :
    Except (Nat × Str) (List CommitD) :=
  let outLines := (splitLines (g.logOut n)).filter (fun l => !(pyStrip l).isEmpty)
  match outLines.mapM parsePipe with
  | none => Except.error (400, str "not enough values to unpack")
  | some cs => Except.ok cs

/-- The generate-pr endpoint of pr_mpc_server: collect commits, call the
    model (its sanitized output is the description), and answer with the
    last subject as title.  The boolean records whether the model was
    invoked.  The blanket handler of the endpoint turns every failure into
    a 500. -/
def endpointServer (g : GitServer) (n : Option Nat) (remote : Str) (llm : Str) :
    Except (Nat × Str) (Str × Str) × Bool :=
  match getCommitsServer g n remote with
  | Except.error e => (Except.error (500, e.2), false)
  | Except.ok commits =>
    let desc := serverSanitize llm
    match commits.getLast? with
    | none => (Except.error (500, str "list index out of range"), true)
    | some c => (Except.ok (c.subject, desc), true)

/-! ## main.py -/

/-- The candidate of the prefix counting loop of main.py: for a subject
    containing a colon, the stripped text before the first colon. -/
def candOf (c : Str) : Option Str :=
  if subStr [':'] c then some (pyStrip (c.takeWhile (· ≠ ':'))) else none

/-- One dict update prefix_count[p] = prefix_count.get(p, 0) + 1 on an
    insertion ordered association list, modelling the Python dict. -/
def bump : List (Str × Nat) → Str → List (Str × Nat)
  | [], k => [(k, 1)]
  | (k0, v) :: rest, k =>
    if k0 = k then (k0, v + 1) :: rest else (k0, v) :: bump rest k

/-- The filled prefix_count dict. -/
def buildCounts (cands : List Str) : List (Str × Nat) := cands.foldl bump []

/-- The candidate sequence of a commit batch in batch order. -/
def candsOf (commits : List Str) : List Str := commits.filterMap candOf

/-- common_prefix of main.py generate_pr_description: the first entry of the
    insertion ordered count dict whose count exceeds one. -/
def commonPfx (commits : List Str) : Option Str :=
  ((buildCounts (candsOf commits)).find? (fun kv => 1 < kv.2)).map (fun kv => kv.1)

/-- The text after the first colon: commit.split with one split, last field. -/
def afterColon (c : Str) : Str := (c.dropWhile (· ≠ ':')).tail

/-- cleaned_commits of main.py: when a nonempty common prefix was selected,
    subjects starting with it followed by a colon lose that segment and the
    surrounding whitespace (an empty selected prefix is falsy in Python and
    strips nothing). -/
def cleanedCommits (commits : List Str) : List Str :=
  match commonPfx commits with
  | some p =>
    if p = [] then commits
    else commits.map (fun c =>
      if hasPre (p ++ [':']) c then pyStrip (afterColon c) else c)
  | none => commits

/-- One numbered line of the prompt listing of main.py. -/
def numTag (n : Nat) : Str := (toString n).data ++ str ". "

/-- The enumeration loop over the reversed cleaned subjects, starting at the
    given number. -/
def goFormat (n : Nat) : List Str → List Str
  | [] => []
  | c :: cs => (numTag n ++ c) :: goFormat (n + 1) cs

/-- formatted_commits of main.py: the reversed cleaned subjects enumerated
    from one. -/
def formatLinesMain (cleaned : List Str) : List Str := goFormat 1 cleaned.reverse

/-- commits_text of main.py, the listing embedded into both prompt variants
    directly under the line announcing most recent to oldest order. -/
def commitsTextMain (cleaned : List Str) : Str := joinNl (formatLinesMain cleaned)

/-- Outcome of one model.generate_content attempt in main.py: the raw text,
    or the string form of the raised exception (the empty response check
    raises inside the try block, so it also lands here). -/
inductive LlmTry where
  | ok (text : Str)
  | err (msg : Str)

/-- The retry loop of main.py generate_pr_description: for each attempt up
    to the bound, an exception whose text carries 429 while attempts remain
    sleeps the current delay and doubles it; any other exception, or a 429
    on the final attempt, is re-raised.  Returns the outcome and the list
    of performed sleeps. -/
def retryGo (f : Nat → LlmTry) (maxRetries : Nat) :
    Nat → Nat → Nat → List Nat → Except Str Str × List Nat
  | 0, _, _, sleeps => (Except.error (str "loop exhausted"), sleeps)
  | fuel + 1, attempt, delay, sleeps =>
    match f attempt with
    | LlmTry.ok t => (Except.ok t, sleeps)
    | LlmTry.err m =>
      if subStr (str "429") m && decide (attempt < maxRetries - 1) then
        retryGo f maxRetries fuel (attempt + 1) (delay * 2) (sleeps ++ [delay])
      else (Except.error m, sleeps)

/-- The retry loop at the constants of main.py: max_retries three and an
    initial delay of thirty. -/
def retryRun (f : Nat → LlmTry) : Except Str Str × List Nat :=
  retryGo f 3 3 0 30 []

/-- The outer handler of main.py generate_pr_description: every escaped
    exception becomes a 500 GenerationError. -/
def generateDescMain (f : Nat → LlmTry) : Except (Nat × Str) Str × List Nat :=
  match retryRun f with
  | (Except.ok t, sleeps) => (Except.ok t, sleeps)
  | (Except.error m, sleeps) =>
    (Except.error (500, str "Error generating PR description: " ++ m), sleeps)

/-- A Python exception as main.py get_commits can raise it: an HTTPException
    carrying a status, or a bare exception rendered by its message. -/
abbrev PyExc := Option Nat × Str

/-- str of the exception: an HTTPException renders as status colon detail. -/
def renderExc : PyExc → Str
  | (some c, d) => (toString c).data ++ str ": " ++ d
  | (none, m) => m

/-- The observable git state main.py get_commits reads: outcome of the
    branch query, of the remote show query, and of the log query as a
    function of the bound and of the revision range argument, each as
    return code with stdout and stderr. -/
structure GitMain where
  branchRc : Nat
  branchOut : Str
  branchErr : Str
  upRc : Nat
  upOut : Str
  upErr : Str
  log : Option Nat → Str → Nat × Str × Str

/-- The body of main.py get_commits up to its blanket handler: resolve the
    current branch, parse the HEAD branch of the hardcoded upstream remote,
    query the log for the range upstream slash HEAD branch up to the
    current branch, keep nonblank lines, fail on an empty result, and
    reverse.  A matched HEAD branch line without a colon raises an
    IndexError in Python, modelled as the bare exception. -/
def getCommitsMainInner (g : GitMain) (n : Option Nat) : Except PyExc (List Str) :=
  if g.branchRc ≠ 0 then
    Except.error (some 400, str "Failed to get current branch: " ++ g.branchErr)
  else
    let currentBranch := pyStrip g.branchOut
    if g.upRc ≠ 0 then
      Except.error (some 400, str "Failed to get upstream remote: " ++ g.upErr)
    else
      match (splitOnNl g.upOut).find? (fun l => subStr (str "HEAD branch") l) with
      | none => Except.error (some 400, str "Could not determine upstream branch")
      | some l =>
        if subStr [':'] l = false then
          Except.error (none, str "list index out of range")
        else
          let ub := pyStrip ((l.dropWhile (· ≠ ':')).tail.takeWhile (· ≠ ':'))
          if ub = [] then
            Except.error (some 400, str "Could not determine upstream branch")
          else
            let rng := str "upstream/" ++ ub ++ str ".." ++ currentBranch
            let res := g.log n rng
            if res.1 ≠ 0 then
              Except.error (some 400, str "Git command failed: " ++ res.2.2)
            else
              let commits := (splitOnNl res.2.1).filter (fun l => !(pyStrip l).isEmpty)
              if commits = [] then
                Except.error (some 400, str "No commits found")
              else
                Except.ok commits.reverse

/-- get_commits of main.py: the body above inside the blanket try block
    that turns every exception, the deliberate 400s included, into a 500. -/
def getCommitsMain (g : GitMain) (n : Option Nat) : Except (Nat × Str) (List Str) :=
  match getCommitsMainInner g n with
  | Except.ok v => Except.ok v
  | Except.error e =>
    Except.error (500, str "Error getting commits: " ++ renderExc e)

/-- The generate-pr endpoint of main.py: collect commits first, and only on
    success reach the generation call.  The boolean records whether the
    model was invoked. -/
def endpointMain (g : GitMain) (n : Option Nat) (f : Nat → LlmTry) :
    Except (Nat × Str) Str × Bool :=
  match getCommitsMain g n with
  | Except.error e => (Except.error e, false)
  | Except.ok _ => ((generateDescMain f).1, true)

/-! ## Auxiliary notions used by the statements and proofs -/

/-- Joining the line decompositions of two texts: the last line of the first
    glues onto the first line of the second. -/
def glue : List Str → List Str → List Str
  | [], ys => ys
  | [x], ys =>
    match ys with
    | [] => [x]
    | y :: ys2 => (x ++ y) :: ys2
  | x :: xs, ys => x :: glue xs ys

/-- Shape invariant of a readlines decomposition: every line is nonempty,
    carries no newline before its last character, and every line except the
    last ends in a newline. -/
def goodLines : List Str → Bool
  | [] => true
  | [l] => !l.isEmpty && !l.dropLast.contains '\n'
  | l :: ls =>
    !l.isEmpty && !l.dropLast.contains '\n' &&
      decide (l.getLast? = some '\n') && goodLines ls

/-- Following the words of claim C3: the candidate is the raw text before
    the first colon, without the strip the code performs. -/
def claimCandOf (c : Str) : Option Str :=
  if subStr [':'] c then some (c.takeWhile (· ≠ ':')) else none

/-- Following the words of claim C3: first raw candidate whose count
    exceeds one. -/
def claimCommonPfx (commits : List Str) : Option Str :=
  ((buildCounts (commits.filterMap claimCandOf)).find? (fun kv => 1 < kv.2)).map
    (fun kv => kv.1)

/-- Following the words of claim C3: strip the selected raw prefix and
    colon with surrounding whitespace from every subject starting with it. -/
def claimCleaned (commits : List Str) : List Str :=
  match claimCommonPfx commits with
  | some p => commits.map (fun c =>
      if hasPre (p ++ [':']) c then pyStrip (afterColon c) else c)
  | none => commits

/-- Following the words of claim C9: the collector queries the revision
    range from the remote tracking branch of the current branch under the
    caller supplied remote up to the current branch. -/
def claimCollect (g : GitMain) (remote : Str) (n : Option Nat) : List Str :=
  let currentBranch := pyStrip g.branchOut
  let rng := remote ++ ['/'] ++ currentBranch ++ str ".." ++ currentBranch
  let res := g.log n rng
  ((splitOnNl res.2.1).filter (fun l => !(pyStrip l).isEmpty)).reverse

/-- Git state with a clean current branch, a clean upstream with HEAD
    branch main, and a log query that always succeeds with empty output:
    zero commits between the range endpoints. -/
def gitZero : GitMain where
  branchRc := 0
  branchOut := str "feature\n"
  branchErr := str ""
  upRc := 0
  upOut := str "* remote upstream\n  HEAD branch: main\n"
  upErr := str ""
  log := fun _ _ => (0, str "", str "")

/-- Server git state whose log output is empty: zero commits. -/
def gitServerZero : GitServer where
  logOut := fun _ => str ""

/-- Git state distinguishing the range the code queries from the range the
    claim describes: the upstream HEAD branch range holds subject a, the
    claimed origin range holds subject b. -/
def gitRanges : GitMain where
  branchRc := 0
  branchOut := str "feature\n"
  branchErr := str ""
  upRc := 0
  upOut := str "* remote upstream\n  HEAD branch: main\n"
  upErr := str ""
  log := fun _ rng =>
    if rng = str "upstream/main..feature" then (0, str "a", str "")
    else if rng = str "origin/feature..feature" then (0, str "b", str "")
    else (0, str "", str "")

/-- A two commit batch for the server prompt builder, oldest first. -/
def batchTwo : List CommitD :=
  [⟨str "h1", str "first", str ""⟩, ⟨str "h2", str "second", str ""⟩]

/-! ## Lemmas on the primitive string operations -/

theorem hasPre_iff (p : Str) : ∀ s, hasPre p s = true ↔ ∃ t, s = p ++ t := by
  induction p with
  | nil =>
    intro s
    simp [hasPre]
  | cons a as ih =>
    intro s
    cases s with
    | nil => simp [hasPre]
    | cons b bs =>
      simp only [hasPre, Bool.and_eq_true, decide_eq_true_eq, ih, List.cons_append]
      constructor
      · rintro ⟨rfl, t, rfl⟩
        exact ⟨t, rfl⟩
      · rintro ⟨t, h⟩
        injection h with h1 h2
        exact ⟨h1.symm, t, h2⟩

theorem hasPre_append (p t : Str) : hasPre p (p ++ t) = true :=
  (hasPre_iff p _).mpr ⟨t, rfl⟩

theorem hasPre_len (p s : Str) (h : hasPre p s = true) : p.length ≤ s.length := by
  obtain ⟨t, rfl⟩ := (hasPre_iff p s).mp h
  simp

theorem hasPre_nil_iff (p : Str) : hasPre p [] = true ↔ p = [] := by
  cases p <;> simp [hasPre]

theorem countOcc_cons (p : Str) (c : Char) (rest : Str) :
    countOcc p (c :: rest) =
      (if hasPre p (c :: rest) then 1 else 0) + countOcc p rest := rfl

theorem countOcc_nil (p : Str) : countOcc p [] = if hasPre p [] then 1 else 0 := rfl

theorem countOcc_eq_sum (p : Str) :
    ∀ s : Str, countOcc p s =
      ∑ i ∈ Finset.range (s.length + 1), if hasPre p (s.drop i) then 1 else 0 := by
  intro s
  induction s with
  | nil => simp [countOcc]
  | cons c rest ih =>
    conv_rhs => rw [List.length_cons, Finset.sum_range_succ']
    simp only [List.drop_succ_cons, List.drop_zero]
    rw [countOcc_cons, ih]
    omega

theorem countOcc_pos_iff (p : Str) (s : Str) :
    0 < countOcc p s ↔ ∃ i, i ≤ s.length ∧ hasPre p (s.drop i) = true := by
  induction s with
  | nil =>
    by_cases h : hasPre p [] = true <;>
      simp [countOcc_nil, h]
  | cons c rest ih =>
    rw [countOcc_cons]
    by_cases h : hasPre p (c :: rest) = true
    · simp only [h, if_true]
      constructor
      · intro _
        exact ⟨0, by simp, by simpa using h⟩
      · intro _
        omega
    · rw [Bool.not_eq_true] at h
      rw [if_neg (by simp [h]), Nat.zero_add, ih]
      constructor
      · rintro ⟨i, hi, hp⟩
        exact ⟨i + 1, by simpa using hi, by simpa using hp⟩
      · rintro ⟨i, hi, hp⟩
        cases i with
        | zero =>
          rw [List.drop_zero] at hp
          rw [hp] at h
          exact Bool.noConfusion h
        | succ j =>
          exact ⟨j, by simpa using hi, by simpa using hp⟩

theorem countOcc_zero_iff (p : Str) (s : Str) :
    countOcc p s = 0 ↔ ∀ i, hasPre p (s.drop i) = false := by
  constructor
  · intro h i
    by_cases hb : i ≤ s.length
    · by_contra hc
      rw [Bool.not_eq_false] at hc
      have : 0 < countOcc p s := (countOcc_pos_iff p s).mpr ⟨i, hb, hc⟩
      omega
    · rw [List.drop_eq_nil_of_le (by omega)]
      by_contra hc
      rw [Bool.not_eq_false, hasPre_nil_iff] at hc
      subst hc
      have : 0 < countOcc [] s := (countOcc_pos_iff [] s).mpr ⟨0, by omega, rfl⟩
      omega
  · intro h
    by_contra hc
    have : 0 < countOcc p s := by omega
    obtain ⟨i, _, hp⟩ := (countOcc_pos_iff p s).mp this
    rw [h i] at hp
    exact absurd hp (by simp)

theorem hasPre_drop_bound (p s : Str) (a : Nat) (hp : p ≠ [])
    (h : hasPre p (s.drop a) = true) : a + p.length ≤ s.length := by
  have h1 := hasPre_len p _ h
  rw [List.length_drop] at h1
  by_cases hb : a ≤ s.length
  · omega
  · rw [List.drop_eq_nil_of_le (by omega)] at h
    rw [hasPre_nil_iff] at h
    exact absurd h hp

theorem countOcc_pos_of (p s : Str) (a : Nat) (hp : p ≠ [])
    (h : hasPre p (s.drop a) = true) : 0 < countOcc p s :=
  (countOcc_pos_iff p s).mpr
    ⟨a, by have := hasPre_drop_bound p s a hp h; omega, h⟩

theorem countOcc_one_unique (p s : Str) (a b : Nat) (hp : p ≠ [])
    (h1 : countOcc p s = 1) (ha : hasPre p (s.drop a) = true)
    (hb : hasPre p (s.drop b) = true) : a = b := by
  by_contra hne
  have hba := hasPre_drop_bound p s a hp ha
  have hbb := hasPre_drop_bound p s b hp hb
  have hsum := countOcc_eq_sum p s
  rw [h1] at hsum
  have hsub : ({a, b} : Finset Nat) ⊆ Finset.range (s.length + 1) := by
    intro x hx
    simp only [Finset.mem_insert, Finset.mem_singleton] at hx
    rcases hx with rfl | rfl <;> simp only [Finset.mem_range] <;> omega
  have h2 :
      (∑ i ∈ ({a, b} : Finset Nat), if hasPre p (s.drop i) then 1 else 0) ≤
        ∑ i ∈ Finset.range (s.length + 1), if hasPre p (s.drop i) then 1 else 0 :=
    Finset.sum_le_sum_of_subset hsub
  rw [Finset.sum_pair hne] at h2
  rw [ha, hb] at h2
  simp only [if_true] at h2
  omega

theorem hasPre_append_right (p x y : Str) (h : hasPre p x = true) :
    hasPre p (x ++ y) = true := by
  obtain ⟨t, rfl⟩ := (hasPre_iff p x).mp h
  rw [List.append_assoc]
  exact hasPre_append p (t ++ y)

theorem hasPre_split_char (p : Str) (ch : Char) (hp : p ≠ []) (hch : ch ∉ p)
    (x y : Str) : hasPre p (x ++ ch :: y) = hasPre p x := by
  by_cases h : hasPre p x = true
  · rw [h, hasPre_append_right p x (ch :: y) h]
  · rw [Bool.not_eq_true] at h
    rw [h, Bool.eq_false_iff]
    intro hcon
    obtain ⟨t, ht⟩ := (hasPre_iff p _).mp hcon
    by_cases hl : p.length ≤ x.length
    · have htake : (x ++ ch :: y).take p.length = x.take p.length :=
        List.take_append_of_le_length hl
      rw [ht] at htake
      rw [List.take_append_of_le_length (le_refl p.length), List.take_length] at htake
      have hx : x = p ++ x.drop p.length := by
        conv_lhs => rw [← List.take_append_drop p.length x]
        rw [← htake]
      have : hasPre p x = true := (hasPre_iff p x).mpr ⟨x.drop p.length, hx⟩
      rw [this] at h
      exact Bool.noConfusion h
    · push_neg at hl
      have hget1 : (x ++ ch :: y)[x.length]? = some ch := by
        rw [List.getElem?_append_right (le_refl x.length)]
        simp
      have hget2 : (p ++ t)[x.length]? = p[x.length]? :=
        List.getElem?_append_left hl
      rw [ht, hget2] at hget1
      exact hch (List.getElem?_mem hget1)

theorem hasPre_nil_false (p : Str) (hp : p ≠ []) : hasPre p [] = false := by
  rw [Bool.eq_false_iff]
  intro hcon
  exact hp ((hasPre_nil_iff p).mp hcon)

theorem countOcc_split_char (p : Str) (hp : p ≠ []) (ch : Char) (hch : ch ∉ p) :
    ∀ x y, countOcc p (x ++ ch :: y) = countOcc p x + countOcc p y := by
  intro x
  induction x with
  | nil =>
    intro y
    rw [List.nil_append, countOcc_cons, countOcc_nil]
    have h0 : hasPre p (ch :: y) = false := by
      have h2 := hasPre_split_char p ch hp hch [] y
      rw [List.nil_append] at h2
      rw [h2]
      exact hasPre_nil_false p hp
    rw [h0, hasPre_nil_false p hp]
  | cons c x2 ih =>
    intro y
    rw [List.cons_append, countOcc_cons, countOcc_cons]
    have heq : hasPre p (c :: (x2 ++ ch :: y)) = hasPre p (c :: x2) := by
      have := hasPre_split_char p ch hp hch (c :: x2) y
      rw [List.cons_append] at this
      exact this
    rw [heq, ih y]
    omega

theorem countOcc_joinNl (p : Str) (hp : p ≠ []) (hnl : ('\n' : Char) ∉ p) :
    ∀ L : List Str, countOcc p (joinNl L) = (L.map (countOcc p)).sum := by
  intro L
  induction L with
  | nil =>
    rw [joinNl, countOcc_nil, hasPre_nil_false p hp]
    simp
  | cons l ls ih =>
    cases ls with
    | nil => simp [joinNl]
    | cons l2 ls2 =>
      rw [show joinNl (l :: l2 :: ls2) = l ++ '\n' :: joinNl (l2 :: ls2) from rfl]
      rw [countOcc_split_char p hp '\n' hnl, ih]
      simp

theorem subStr_iff (p s : Str) : subStr p s = true ↔ 0 < countOcc p s := by
  simp [subStr]

theorem subStr_false_iff (p s : Str) : subStr p s = false ↔ countOcc p s = 0 := by
  simp [subStr]

theorem hasPre_of_append_le (p x y : Str) (h : hasPre p (x ++ y) = true)
    (hl : p.length ≤ x.length) : hasPre p x = true := by
  obtain ⟨t, ht⟩ := (hasPre_iff p _).mp h
  have htake : (x ++ y).take p.length = x.take p.length :=
    List.take_append_of_le_length hl
  rw [ht, List.take_append_of_le_length (le_refl p.length), List.take_length] at htake
  exact (hasPre_iff p x).mpr
    ⟨x.drop p.length, by conv_lhs => rw [← List.take_append_drop p.length x, ← htake]⟩

theorem hasPre_of_append_ge (p x y : Str) (h : hasPre p (x ++ y) = true)
    (hl : x.length ≤ p.length) :
    p = x ++ p.drop x.length ∧ hasPre (p.drop x.length) y = true := by
  obtain ⟨t, ht⟩ := (hasPre_iff p _).mp h
  have htake : (x ++ y).take x.length = (p ++ t).take x.length := by rw [ht]
  rw [List.take_append_of_le_length (le_refl x.length), List.take_length,
    List.take_append_of_le_length hl] at htake
  have hpx : p = x ++ p.drop x.length := by
    conv_lhs => rw [← List.take_append_drop x.length p, ← htake]
  constructor
  · exact hpx
  · have hy : x ++ y = x ++ (p.drop x.length ++ t) := by
      rw [← List.append_assoc, ← hpx, ht]
    exact (hasPre_iff _ y).mpr ⟨t, List.append_cancel_left hy⟩

/-! ## Lemmas on replaceAll -/

theorem replaceAllF_congr (p r : Str) : ∀ f1 f2 (s : Str), s.length ≤ f1 →
    s.length ≤ f2 → replaceAllF p r f1 s = replaceAllF p r f2 s := by
  intro f1
  induction f1 with
  | zero =>
    intro f2 s h1 _
    have hs : s = [] := List.eq_nil_of_length_eq_zero (by omega)
    subst hs
    cases f2 <;> rfl
  | succ f ih =>
    intro f2 s h1 h2
    cases s with
    | nil => cases f2 <;> rfl
    | cons c rest =>
      cases f2 with
      | zero => simp at h2
      | succ f2b =>
        show (if p ≠ [] ∧ hasPre p (c :: rest) = true then
            r ++ replaceAllF p r f ((c :: rest).drop p.length)
          else c :: replaceAllF p r f rest) =
          (if p ≠ [] ∧ hasPre p (c :: rest) = true then
            r ++ replaceAllF p r f2b ((c :: rest).drop p.length)
          else c :: replaceAllF p r f2b rest)
        simp only [List.length_cons] at h1 h2
        by_cases h : p ≠ [] ∧ hasPre p (c :: rest) = true
        · rw [if_pos h, if_pos h]
          have hp1 : 1 ≤ p.length := by
            cases hpp : p with
            | nil => exact absurd hpp h.1
            | cons a as => simp
          congr 1
          apply ih
          · simp only [List.length_drop, List.length_cons]
            omega
          · simp only [List.length_drop, List.length_cons]
            omega
        · rw [if_neg h, if_neg h]
          congr 1
          apply ih <;> omega

theorem replaceAll_cons_pos (p r : Str) (c : Char) (rest : Str) (hp : p ≠ [])
    (hpre : hasPre p (c :: rest) = true) :
    replaceAll p r (c :: rest) = r ++ replaceAll p r ((c :: rest).drop p.length) := by
  have hp1 : 1 ≤ p.length := by
    cases hpp : p with
    | nil => exact absurd hpp hp
    | cons a as => simp
  show replaceAllF p r (c :: rest).length (c :: rest) = _
  rw [show (c :: rest).length = rest.length + 1 from rfl]
  show (if p ≠ [] ∧ hasPre p (c :: rest) = true then
      r ++ replaceAllF p r rest.length ((c :: rest).drop p.length)
    else c :: replaceAllF p r rest.length rest) = _
  rw [if_pos ⟨hp, hpre⟩]
  congr 1
  apply replaceAllF_congr
  · simp only [List.length_drop, List.length_cons]
    omega
  · exact le_refl _

theorem replaceAll_cons_neg (p r : Str) (c : Char) (rest : Str)
    (hpre : ¬(p ≠ [] ∧ hasPre p (c :: rest) = true)) :
    replaceAll p r (c :: rest) = c :: replaceAll p r rest := by
  show replaceAllF p r (c :: rest).length (c :: rest) = _
  rw [show (c :: rest).length = rest.length + 1 from rfl]
  show (if p ≠ [] ∧ hasPre p (c :: rest) = true then
      r ++ replaceAllF p r rest.length ((c :: rest).drop p.length)
    else c :: replaceAllF p r rest.length rest) = _
  rw [if_neg hpre]
  rfl

theorem replaceAll_nil (p r : Str) : replaceAll p r [] = [] := rfl

theorem replaceAll_of_zero (p r : Str) (hp : p ≠ []) :
    ∀ s : Str, countOcc p s = 0 → replaceAll p r s = s := by
  intro s
  induction s with
  | nil => intro _; exact replaceAll_nil p r
  | cons c rest ih =>
    intro h
    rw [countOcc_cons] at h
    have h1 : hasPre p (c :: rest) = false := by
      by_contra hc
      rw [Bool.not_eq_false] at hc
      rw [hc] at h
      simp at h
    have h2 : countOcc p rest = 0 := by
      rw [h1] at h
      simpa using h
    rw [replaceAll_cons_neg p r c rest (by simp [h1]), ih h2]

theorem replaceAll_mem_aux (p r : Str) :
    ∀ n (s : Str), s.length ≤ n → ∀ x ∈ replaceAll p r s, x ∈ s ∨ x ∈ r := by
  intro n
  induction n with
  | zero =>
    intro s hs x hx
    have : s = [] := List.eq_nil_of_length_eq_zero (by omega)
    subst this
    exact absurd hx (by rw [replaceAll_nil] at hx ⊢; simp)
  | succ n ih =>
    intro s hs x hx
    cases s with
    | nil => exact absurd hx (by rw [replaceAll_nil] at hx ⊢; simp)
    | cons c rest =>
      by_cases h : p ≠ [] ∧ hasPre p (c :: rest) = true
      · rw [replaceAll_cons_pos p r c rest h.1 h.2] at hx
        rcases List.mem_append.mp hx with hr | hrec
        · exact Or.inr hr
        · have hplen : 1 ≤ p.length := by
            cases hpp : p with
            | nil => exact absurd hpp h.1
            | cons a as => simp
          have hlen : ((c :: rest).drop p.length).length ≤ n := by
            simp only [List.length_drop, List.length_cons]
            simp only [List.length_cons] at hs
            omega
          rcases ih _ hlen x hrec with hmem | hr
          · exact Or.inl (List.mem_of_mem_drop hmem)
          · exact Or.inr hr
      · rw [replaceAll_cons_neg p r c rest h] at hx
        rcases List.mem_cons.mp hx with rfl | hmem
        · exact Or.inl (List.mem_cons_self x rest)
        · simp only [List.length_cons] at hs
          rcases ih rest (by omega) x hmem with hm | hr
          · exact Or.inl (List.mem_cons_of_mem c hm)
          · exact Or.inr hr

theorem replaceAll_mem (p r s : Str) (x : Char) (hx : x ∈ replaceAll p r s) :
    x ∈ s ∨ x ∈ r :=
  replaceAll_mem_aux p r s.length s (le_refl _) x hx

theorem replaceAll_first (p r : Str) (hp : p ≠ []) :
    ∀ a b : Str, (∀ i, i < a.length → hasPre p ((a ++ p ++ b).drop i) = false) →
    replaceAll p r (a ++ p ++ b) = a ++ r ++ replaceAll p r b := by
  intro a
  induction a with
  | nil =>
    intro b _
    simp only [List.nil_append]
    obtain ⟨pc, prest, hpp⟩ : ∃ pc prest, p = pc :: prest := by
      cases p with
      | nil => exact absurd rfl hp
      | cons a as => exact ⟨a, as, rfl⟩
    have hcons : p ++ b = pc :: (prest ++ b) := by rw [hpp]; rfl
    have hpre : hasPre p (pc :: (prest ++ b)) = true := by
      rw [← hcons]; exact hasPre_append p b
    calc replaceAll p r (p ++ b)
        = replaceAll p r (pc :: (prest ++ b)) := by rw [hcons]
      _ = r ++ replaceAll p r ((pc :: (prest ++ b)).drop p.length) :=
          replaceAll_cons_pos p r pc (prest ++ b) hp hpre
      _ = r ++ replaceAll p r b := by rw [← hcons, List.drop_left]
  | cons c a2 ih =>
    intro b h
    simp only [List.append_assoc, List.cons_append] at h ⊢
    have h0 := h 0 (by simp)
    rw [List.drop_zero] at h0
    rw [replaceAll_cons_neg p r c _
      (fun hcon => by rw [h0] at hcon; exact Bool.noConfusion hcon.2)]
    have hih := ih b (fun i hi => by
      have h2 := h (i + 1) (by simp only [List.length_cons]; omega)
      rw [List.drop_succ_cons] at h2
      rw [List.append_assoc]
      exact h2)
    simp only [List.append_assoc] at hih
    rw [hih]

/-! ## Facts about the jira placeholder and the canonical line -/

theorem jiraPh_ne_nil (t : Str) : jiraPh t ≠ [] := by simp [jiraPh]

theorem jiraPh_length (t : Str) : (jiraPh t).length = t.length + 2 := by
  simp [jiraPh]

theorem jiraCanon_length (t : Str) : (jiraCanon t).length = t.length + 13 := by
  simp [jiraCanon, str]

theorem jiraPh_getLast (t : Str) : (jiraPh t).getLast? = some ']' := by
  rw [jiraPh, show ('[' :: (t ++ [']'])) = ('[' :: t) ++ [']'] from by simp]
  exact List.getLast?_concat _

theorem jiraCanon_not_lb (t : Str) (h : ('[' : Char) ∉ t) : ('[' : Char) ∉ jiraCanon t := by
  rw [jiraCanon]
  intro hmem
  rcases List.mem_append.mp hmem with hs | ht
  · exact absurd hs (by decide)
  · exact h ht

theorem jiraCanon_not_rb (t : Str) (h : (']' : Char) ∉ t) : (']' : Char) ∉ jiraCanon t := by
  rw [jiraCanon]
  intro hmem
  rcases List.mem_append.mp hmem with hs | ht
  · exact absurd hs (by decide)
  · exact h ht

theorem jiraCanon_not_nl (t : Str) (h : ('\n' : Char) ∉ t) :
    ('\n' : Char) ∉ jiraCanon t := by
  rw [jiraCanon]
  intro hmem
  rcases List.mem_append.mp hmem with hs | ht
  · exact absurd hs (by decide)
  · exact h ht

theorem jiraPh_not_nl (t : Str) (h : ('\n' : Char) ∉ t) :
    ('\n' : Char) ∉ jiraPh t := by
  rw [jiraPh]
  intro hmem
  rcases List.mem_cons.mp hmem with heq | hmem2
  · exact absurd heq (by decide)
  · rcases List.mem_append.mp hmem2 with ht | hb
    · exact h ht
    · exact absurd hb (by decide)

theorem getLast?_append_ne {α : Type} (x y : List α) (hy : y ≠ []) :
    (x ++ y).getLast? = y.getLast? := by
  rw [List.getLast?_append]
  cases hg : y.getLast? with
  | none => exact absurd (List.getLast?_eq_none_iff.mp hg) hy
  | some c => rfl

theorem mem_of_getLast?_eq : ∀ (l : Str) (c : Char), l.getLast? = some c → c ∈ l := by
  intro l
  induction l with
  | nil => intro c h; exact absurd h (by simp)
  | cons a rest ih =>
    intro c h
    cases rest with
    | nil =>
      simp only [List.getLast?_singleton, Option.some.injEq] at h
      simp [h]
    | cons b rest2 =>
      rw [List.getLast?_cons_cons] at h
      exact List.mem_cons_of_mem a (ih c h)

/-- The centerpiece of the amended claim C1: replacing the unique occurrence
    of the placeholder of a bracket free ticket by the canonical line leaves
    no placeholder occurrence behind and plants the canonical line. -/
theorem jira_replace_clean (t l : Str)
    (hlb : ('[' : Char) ∉ t) (hrb : (']' : Char) ∉ t)
    (h1 : countOcc (jiraPh t) l = 1) :
    countOcc (jiraPh t) (replaceAll (jiraPh t) (jiraCanon t) l) = 0 ∧
    subStr (jiraCanon t) (replaceAll (jiraPh t) (jiraCanon t) l) = true := by
  have hpne : jiraPh t ≠ [] := jiraPh_ne_nil t
  have hlen_ph : (jiraPh t).length = t.length + 2 := jiraPh_length t
  have hlen_c : (jiraCanon t).length = t.length + 13 := jiraCanon_length t
  have hlb_c : ('[' : Char) ∉ jiraCanon t := jiraCanon_not_lb t hlb
  have hrb_c : (']' : Char) ∉ jiraCanon t := jiraCanon_not_rb t hrb
  obtain ⟨A, hAle, hA⟩ := (countOcc_pos_iff (jiraPh t) l).mp (by omega)
  have huniq : ∀ i, hasPre (jiraPh t) (l.drop i) = true → i = A := fun i hi =>
    countOcc_one_unique (jiraPh t) l i A hpne h1 hi hA
  obtain ⟨b, hb⟩ := (hasPre_iff (jiraPh t) _).mp hA
  have hdec : l = l.take A ++ jiraPh t ++ b := by
    rw [List.append_assoc, ← hb, List.take_append_drop]
  have haLen : (l.take A).length = A := by
    rw [List.length_take]
    omega
  have hb0 : countOcc (jiraPh t) b = 0 := by
    rw [countOcc_zero_iff]
    intro j
    by_contra hc
    rw [Bool.not_eq_false] at hc
    have hjl : l.drop (A + (jiraPh t).length + j) = b.drop j := by
      conv_lhs => rw [hdec]
      rw [show A + (jiraPh t).length + j = (l.take A ++ jiraPh t).length + j by
        rw [List.length_append, haLen]]
      rw [List.drop_append]
    have hEq := huniq (A + (jiraPh t).length + j) (by rw [hjl]; exact hc)
    omega
  have hearly : ∀ i, i < (l.take A).length →
      hasPre (jiraPh t) ((l.take A ++ jiraPh t ++ b).drop i) = false := by
    intro i hi
    by_contra hc
    rw [Bool.not_eq_false] at hc
    rw [← hdec] at hc
    have := huniq i hc
    omega
  have hrepl : replaceAll (jiraPh t) (jiraCanon t) l =
      l.take A ++ jiraCanon t ++ b := by
    conv_lhs => rw [hdec]
    rw [replaceAll_first (jiraPh t) (jiraCanon t) hpne (l.take A) b hearly,
      replaceAll_of_zero (jiraPh t) (jiraCanon t) hpne b hb0]
  constructor
  · rw [hrepl, countOcc_zero_iff]
    intro i
    by_contra hc
    rw [Bool.not_eq_false] at hc
    by_cases hI1 : (l.take A).length + (jiraCanon t).length ≤ i
    · set k := i - ((l.take A).length + (jiraCanon t).length) with hkdef
      have hdropb : (l.take A ++ jiraCanon t ++ b).drop i = b.drop k := by
        have hieq : i = (l.take A ++ jiraCanon t).length + k := by
          rw [List.length_append]
          omega
        rw [hieq, List.drop_append]
      rw [hdropb] at hc
      have := countOcc_pos_of (jiraPh t) b _ hpne hc
      omega
    · by_cases hI2 : (l.take A).length ≤ i
      · set k := i - (l.take A).length with hkdef
        have hk : k < (jiraCanon t).length := by omega
        have hdropped : (l.take A ++ jiraCanon t ++ b).drop i =
            (jiraCanon t).drop k ++ b := by
          have hieq : i = (l.take A).length + k := by omega
          rw [List.append_assoc, hieq, List.drop_append,
            List.drop_append_of_le_length (by omega)]
        rw [hdropped] at hc
        obtain ⟨u, hu⟩ := (hasPre_iff (jiraPh t) _).mp hc
        have hget : ((jiraCanon t).drop k ++ b)[0]? = some '[' := by
          rw [hu, jiraPh]
          simp
        rw [List.getElem?_append_left (by
          rw [List.length_drop]
          omega)] at hget
        have h3 : (jiraCanon t)[k + 0]? = some '[' := by
          rw [← List.getElem?_drop]
          exact hget
        exact hlb_c (List.getElem?_mem (by simpa using h3))
      · push_neg at hI2
        have hdropped : (l.take A ++ jiraCanon t ++ b).drop i =
            (l.take A).drop i ++ (jiraCanon t ++ b) := by
          rw [List.append_assoc, List.drop_append_of_le_length (by omega)]
        rw [hdropped] at hc
        by_cases hI3 : (jiraPh t).length ≤ ((l.take A).drop i).length
        · have hpa := hasPre_of_append_le (jiraPh t) _ _ hc hI3
          have hpl : hasPre (jiraPh t) (l.drop i) = true := by
            have hld : l.drop i = (l.take A).drop i ++ (jiraPh t ++ b) := by
              conv_lhs => rw [hdec]
              rw [List.append_assoc, List.drop_append_of_le_length (by omega)]
            rw [hld]
            exact hasPre_append_right (jiraPh t) _ _ hpa
          have := huniq i hpl
          omega
        · push_neg at hI3
          obtain ⟨hpeq, hw⟩ := hasPre_of_append_ge (jiraPh t) ((l.take A).drop i)
            (jiraCanon t ++ b) hc (by omega)
          have hadlen : ((l.take A).drop i).length = A - i := by
            rw [List.length_drop, haLen]
          have hwlen : ((jiraPh t).drop ((l.take A).drop i).length).length =
              (jiraPh t).length - ((l.take A).drop i).length := by
            rw [List.length_drop]
          have hwne : (jiraPh t).drop ((l.take A).drop i).length ≠ [] := by
            apply List.ne_nil_of_length_pos
            omega
          have hwlast : ((jiraPh t).drop ((l.take A).drop i).length).getLast? =
              some ']' := by
            have hgl := jiraPh_getLast t
            conv_lhs at hgl => rw [hpeq]
            rw [getLast?_append_ne _ _ hwne] at hgl
            exact hgl
          by_cases hI4 : ((jiraPh t).drop ((l.take A).drop i).length).length ≤
              (jiraCanon t).length
          · have hwc := hasPre_of_append_le _ (jiraCanon t) b hw hI4
            obtain ⟨u2, hu2⟩ := (hasPre_iff _ (jiraCanon t)).mp hwc
            have : (']' : Char) ∈ jiraCanon t := by
              rw [hu2]
              exact List.mem_append.mpr (Or.inl (mem_of_getLast?_eq _ _ hwlast))
            exact hrb_c this
          · omega
  · rw [hrepl, subStr_iff]
    have hcne : jiraCanon t ≠ [] := List.ne_nil_of_length_pos (by omega)
    apply countOcc_pos_of (jiraCanon t) _ (l.take A).length hcne
    rw [List.append_assoc, List.drop_left]
    exact hasPre_append (jiraCanon t) b

/-! ## Lemmas on the jira line scan -/

theorem jiraScan_nil (ph canon : Str) (handled : Bool) :
    jiraScan ph canon [] handled = ([], handled) := rfl

theorem jiraScan_cons_ph (ph canon l : Str) (ls : List Str) (handled : Bool)
    (h : subStr ph l = true) :
    jiraScan ph canon (l :: ls) handled =
      if handled then jiraScan ph canon ls true
      else (replaceAll ph canon l :: (jiraScan ph canon ls true).1,
        (jiraScan ph canon ls true).2) := by
  rw [jiraScan, h]
  simp

theorem jiraScan_cons_canon (ph canon l : Str) (ls : List Str) (handled : Bool)
    (h1 : subStr ph l = false) (h2 : subStr canon l = true) :
    jiraScan ph canon (l :: ls) handled =
      if handled then jiraScan ph canon ls true
      else (l :: (jiraScan ph canon ls true).1, (jiraScan ph canon ls true).2) := by
  rw [jiraScan, h1, h2]
  simp

theorem jiraScan_cons_other (ph canon l : Str) (ls : List Str) (handled : Bool)
    (h1 : subStr ph l = false) (h2 : subStr canon l = false) :
    jiraScan ph canon (l :: ls) handled =
      ((l :: (jiraScan ph canon ls handled).1), (jiraScan ph canon ls handled).2) := by
  rw [jiraScan, h1, h2]
  simp

theorem jiraScan_id (ph canon : Str) : ∀ (ls : List Str) (handled : Bool),
    (∀ l ∈ ls, subStr ph l = false ∧ subStr canon l = false) →
    jiraScan ph canon ls handled = (ls, handled) := by
  intro ls
  induction ls with
  | nil => intro handled _; rfl
  | cons l ls2 ih =>
    intro handled h
    have h0 := h l (List.mem_cons_self l ls2)
    rw [jiraScan_cons_other ph canon l ls2 handled h0.1 h0.2,
      ih handled (fun x hx => h x (List.mem_cons_of_mem l hx))]

theorem jiraScan_true (ph canon : Str) : ∀ ls : List Str,
    (jiraScan ph canon ls true).2 = true ∧
    ∀ l ∈ (jiraScan ph canon ls true).1,
      subStr ph l = false ∧ subStr canon l = false := by
  intro ls
  induction ls with
  | nil =>
    refine ⟨rfl, ?_⟩
    intro l hl
    simp [jiraScan_nil] at hl
  | cons l ls2 ih =>
    by_cases h1 : subStr ph l = true
    · rw [jiraScan_cons_ph ph canon l ls2 true h1, if_pos rfl]
      exact ih
    · rw [Bool.not_eq_true] at h1
      by_cases h2 : subStr canon l = true
      · rw [jiraScan_cons_canon ph canon l ls2 true h1 h2, if_pos rfl]
        exact ih
      · rw [Bool.not_eq_true] at h2
        rw [jiraScan_cons_other ph canon l ls2 true h1 h2]
        refine ⟨ih.1, ?_⟩
        intro x hx
        rcases List.mem_cons.mp hx with rfl | hmem
        · exact ⟨h1, h2⟩
        · exact ih.2 x hmem

theorem jiraScan_mem (ph canon : Str) : ∀ (ls : List Str) (handled : Bool),
    ∀ l ∈ (jiraScan ph canon ls handled).1,
      l ∈ ls ∨ ∃ l0 ∈ ls, l = replaceAll ph canon l0 := by
  intro ls
  induction ls with
  | nil =>
    intro handled l hl
    simp [jiraScan_nil] at hl
  | cons l0 ls2 ih =>
    intro handled l hl
    have step : ∀ x, x ∈ (jiraScan ph canon ls2 true).1 ∨
        x ∈ (jiraScan ph canon ls2 handled).1 →
        x ∈ l0 :: ls2 ∨ ∃ y ∈ l0 :: ls2, x = replaceAll ph canon y := by
      intro x hx
      have hres : x ∈ ls2 ∨ ∃ y ∈ ls2, x = replaceAll ph canon y := by
        rcases hx with hx | hx
        · exact ih true x hx
        · exact ih handled x hx
      rcases hres with hm | ⟨y, hy, hrep⟩
      · exact Or.inl (List.mem_cons_of_mem l0 hm)
      · exact Or.inr ⟨y, List.mem_cons_of_mem l0 hy, hrep⟩
    by_cases h1 : subStr ph l0 = true
    · rw [jiraScan_cons_ph ph canon l0 ls2 handled h1] at hl
      cases handled with
      | true =>
        rw [if_pos rfl] at hl
        exact step l (Or.inl hl)
      | false =>
        rw [if_neg (by simp)] at hl
        rcases List.mem_cons.mp hl with rfl | hmem
        · exact Or.inr ⟨l0, List.mem_cons_self l0 ls2, rfl⟩
        · exact step l (Or.inl hmem)
    · rw [Bool.not_eq_true] at h1
      by_cases h2 : subStr canon l0 = true
      · rw [jiraScan_cons_canon ph canon l0 ls2 handled h1 h2] at hl
        cases handled with
        | true =>
          rw [if_pos rfl] at hl
          exact step l (Or.inl hl)
        | false =>
          rw [if_neg (by simp)] at hl
          rcases List.mem_cons.mp hl with rfl | hmem
          · exact Or.inl (List.mem_cons_self l ls2)
          · exact step l (Or.inl hmem)
      · rw [Bool.not_eq_true] at h2
        rw [jiraScan_cons_other ph canon l0 ls2 handled h1 h2] at hl
        rcases List.mem_cons.mp hl with rfl | hmem
        · exact Or.inl (List.mem_cons_self l ls2)
        · exact step l (Or.inr hmem)

theorem jiraScan_main (ph canon : Str) (hpne : ph ≠ [])
    (hscan : ∀ l : Str, countOcc ph l = 1 →
      countOcc ph (replaceAll ph canon l) = 0 ∧
      subStr canon (replaceAll ph canon l) = true) :
    ∀ ls : List Str, (ls.map (countOcc ph)).sum = 1 →
      (jiraScan ph canon ls false).1.countP (fun l => subStr canon l) = 1 ∧
      (∀ l ∈ (jiraScan ph canon ls false).1, countOcc ph l = 0) ∧
      (jiraScan ph canon ls false).2 = true := by
  intro ls
  induction ls with
  | nil => intro h; simp at h
  | cons l ls2 ih =>
    intro hsum
    rw [List.map_cons, List.sum_cons] at hsum
    by_cases h1 : subStr ph l = true
    · have hge := (subStr_iff ph l).mp h1
      have hone : countOcc ph l = 1 := by omega
      obtain ⟨hr0, hrc⟩ := hscan l hone
      have htr := jiraScan_true ph canon ls2
      rw [jiraScan_cons_ph ph canon l ls2 false h1, if_neg (by simp)]
      refine ⟨?_, ?_, htr.1⟩
      · rw [List.countP_cons, hrc]
        simp only [if_true]
        have hz : (jiraScan ph canon ls2 true).1.countP
            (fun x => subStr canon x) = 0 :=
          List.countP_eq_zero.mpr (fun x hx => by
            rw [(htr.2 x hx).2]
            simp)
        rw [hz]
      · intro x hx
        rcases List.mem_cons.mp hx with rfl | hmem
        · exact hr0
        · exact (subStr_false_iff ph x).mp (htr.2 x hmem).1
    · rw [Bool.not_eq_true] at h1
      have hl0 : countOcc ph l = 0 := (subStr_false_iff ph l).mp h1
      have hsum2 : (ls2.map (countOcc ph)).sum = 1 := by omega
      by_cases h2 : subStr canon l = true
      · have htr := jiraScan_true ph canon ls2
        rw [jiraScan_cons_canon ph canon l ls2 false h1 h2, if_neg (by simp)]
        refine ⟨?_, ?_, htr.1⟩
        · rw [List.countP_cons, h2]
          simp only [if_true]
          have hz : (jiraScan ph canon ls2 true).1.countP
              (fun x => subStr canon x) = 0 :=
            List.countP_eq_zero.mpr (fun x hx => by
              rw [(htr.2 x hx).2]
              simp)
          rw [hz]
        · intro x hx
          rcases List.mem_cons.mp hx with rfl | hmem
          · exact hl0
          · exact (subStr_false_iff ph x).mp (htr.2 x hmem).1
      · rw [Bool.not_eq_true] at h2
        obtain ⟨ihc, ihm, ihh⟩ := ih hsum2
        rw [jiraScan_cons_other ph canon l ls2 false h1 h2]
        refine ⟨?_, ?_, ihh⟩
        · rw [List.countP_cons, h2, ihc]
          simp
        · intro x hx
          rcases List.mem_cons.mp hx with rfl | hmem
          · exact hl0
          · exact ihm x hmem

/-! ## Lemmas on line splitting and joining -/

theorem splitOnNl_ne_nil : ∀ s : Str, splitOnNl s ≠ [] := by
  intro s
  cases s with
  | nil => simp [splitOnNl]
  | cons c rest =>
    by_cases hc : c = '\n'
    · simp [splitOnNl, hc]
    · simp only [splitOnNl, hc, if_false]
      cases hsp : splitOnNl rest <;> simp

theorem splitOnNl_cons_nl (rest : Str) :
    splitOnNl ('\n' :: rest) = [] :: splitOnNl rest := by
  simp [splitOnNl]

theorem splitOnNl_cons (c : Char) (rest : Str) (hc : c ≠ '\n') (l : Str)
    (ls : List Str) (h : splitOnNl rest = l :: ls) :
    splitOnNl (c :: rest) = (c :: l) :: ls := by
  simp [splitOnNl, hc, h]

theorem joinNl_splitOnNl : ∀ s : Str, joinNl (splitOnNl s) = s := by
  intro s
  induction s with
  | nil => simp [splitOnNl, joinNl]
  | cons c rest ih =>
    by_cases hc : c = '\n'
    · subst hc
      rw [splitOnNl_cons_nl]
      cases hsp : splitOnNl rest with
      | nil => exact absurd hsp (splitOnNl_ne_nil rest)
      | cons l ls =>
        rw [show joinNl ([] :: l :: ls) = [] ++ '\n' :: joinNl (l :: ls) from rfl]
        rw [← hsp, ih]
        simp
    · cases hsp : splitOnNl rest with
      | nil => exact absurd hsp (splitOnNl_ne_nil rest)
      | cons l ls =>
        rw [splitOnNl_cons c rest hc l ls hsp]
        cases ls with
        | nil =>
          rw [show joinNl [c :: l] = c :: l from rfl]
          rw [hsp] at ih
          rw [show joinNl [l] = l from rfl] at ih
          rw [ih]
        | cons l2 ls2 =>
          rw [show joinNl ((c :: l) :: l2 :: ls2) =
                (c :: l) ++ '\n' :: joinNl (l2 :: ls2) from rfl]
          rw [hsp] at ih
          rw [show joinNl (l :: l2 :: ls2) = l ++ '\n' :: joinNl (l2 :: ls2) from rfl]
            at ih
          rw [List.cons_append, ih]

theorem splitOnNl_no_nl : ∀ s : Str, ∀ l ∈ splitOnNl s, ('\n' : Char) ∉ l := by
  intro s
  induction s with
  | nil =>
    intro l hl
    simp [splitOnNl] at hl
    simp [hl]
  | cons c rest ih =>
    by_cases hc : c = '\n'
    · subst hc
      rw [splitOnNl_cons_nl]
      intro l hl
      rcases List.mem_cons.mp hl with rfl | hmem
      · simp
      · exact ih l hmem
    · cases hsp : splitOnNl rest with
      | nil => exact absurd hsp (splitOnNl_ne_nil rest)
      | cons l0 ls0 =>
        rw [splitOnNl_cons c rest hc l0 ls0 hsp]
        intro l hl
        rcases List.mem_cons.mp hl with rfl | hmem
        · intro hmem2
          rcases List.mem_cons.mp hmem2 with heq | hmem3
          · exact hc heq.symm
          · exact ih l0 (hsp ▸ List.mem_cons_self l0 ls0) hmem3
        · exact ih l (hsp ▸ List.mem_cons_of_mem l0 hmem)

theorem splitOnNl_single (l : Str) (h : ('\n' : Char) ∉ l) : splitOnNl l = [l] := by
  induction l with
  | nil => simp [splitOnNl]
  | cons c rest ih =>
    have hc : c ≠ '\n' := fun hcc => h (hcc ▸ List.mem_cons_self c rest)
    have hr : splitOnNl rest = [rest] := ih (fun hm => h (List.mem_cons_of_mem c hm))
    rw [splitOnNl_cons c rest hc rest [] hr]

theorem splitOnNl_append_nl (l z : Str) (h : ('\n' : Char) ∉ l) :
    splitOnNl (l ++ '\n' :: z) = l :: splitOnNl z := by
  induction l with
  | nil => simp [splitOnNl_cons_nl]
  | cons c rest ih =>
    have hc : c ≠ '\n' := fun hcc => h (hcc ▸ List.mem_cons_self c rest)
    have hr := ih (fun hm => h (List.mem_cons_of_mem c hm))
    rw [List.cons_append, splitOnNl_cons c _ hc rest (splitOnNl z) hr]

theorem splitOnNl_joinNl : ∀ L : List Str, L ≠ [] → (∀ l ∈ L, ('\n' : Char) ∉ l) →
    splitOnNl (joinNl L) = L := by
  intro L
  induction L with
  | nil => intro h; exact absurd rfl h
  | cons l ls ih =>
    intro _ hn
    cases ls with
    | nil =>
      rw [show joinNl [l] = l from rfl]
      exact splitOnNl_single l (hn l (List.mem_cons_self l []))
    | cons l2 ls2 =>
      rw [show joinNl (l :: l2 :: ls2) = l ++ '\n' :: joinNl (l2 :: ls2) from rfl]
      rw [splitOnNl_append_nl l _ (hn l (List.mem_cons_self l _))]
      rw [ih (by simp) (fun x hx => hn x (List.mem_cons_of_mem l hx))]

theorem splitOnNl_two_le (s : Str) (h : ('\n' : Char) ∈ s) :
    2 ≤ (splitOnNl s).length := by
  induction s with
  | nil => simp at h
  | cons c rest ih =>
    by_cases hc : c = '\n'
    · subst hc
      rw [splitOnNl_cons_nl]
      have := splitOnNl_ne_nil rest
      cases hsp : splitOnNl rest with
      | nil => exact absurd hsp this
      | cons l ls => simp [hsp]
    · have hm : ('\n' : Char) ∈ rest := by
        rcases List.mem_cons.mp h with heq | hmem
        · exact absurd heq.symm hc
        · exact hmem
      cases hsp : splitOnNl rest with
      | nil => exact absurd hsp (splitOnNl_ne_nil rest)
      | cons l ls =>
        rw [splitOnNl_cons c rest hc l ls hsp]
        have h2 := ih hm
        rw [hsp] at h2
        simpa using h2

theorem splitOnNl_getLast_nl :
    ∀ s : Str, s.getLast? = some '\n' → (splitOnNl s).getLast? = some [] := by
  intro s
  induction s with
  | nil => intro h; exact absurd h (by simp)
  | cons c rest ih =>
    intro h
    cases rest with
    | nil =>
      simp only [List.getLast?_singleton, Option.some.injEq] at h
      subst h
      rw [splitOnNl_cons_nl]
      simp [splitOnNl]
    | cons b rest2 =>
      rw [List.getLast?_cons_cons] at h
      have hlast := ih h
      have hmem : ('\n' : Char) ∈ b :: rest2 := mem_of_getLast?_eq _ _ h
      by_cases hc : c = '\n'
      · subst hc
        rw [splitOnNl_cons_nl]
        cases hsp : splitOnNl (b :: rest2) with
        | nil => exact absurd hsp (splitOnNl_ne_nil _)
        | cons l ls =>
          rw [hsp] at hlast
          rw [List.getLast?_cons_cons]
          exact hlast
      · cases hsp : splitOnNl (b :: rest2) with
        | nil => exact absurd hsp (splitOnNl_ne_nil _)
        | cons l ls =>
          rw [splitOnNl_cons c _ hc l ls hsp]
          have hlen := splitOnNl_two_le _ hmem
          rw [hsp] at hlen
          cases ls with
          | nil => simp at hlen
          | cons l2 ls2 =>
            rw [hsp, List.getLast?_cons_cons] at hlast
            rw [List.getLast?_cons_cons]
            exact hlast

theorem countOcc_splitLines (p : Str) (hp : p ≠ []) (hnl : ('\n' : Char) ∉ p)
    (s : Str) : countOcc p s = ((splitLines s).map (countOcc p)).sum := by
  have hbase : countOcc p s = ((splitOnNl s).map (countOcc p)).sum := by
    conv_lhs => rw [← joinNl_splitOnNl s]
    exact countOcc_joinNl p hp hnl (splitOnNl s)
  rw [splitLines]
  by_cases hl : s.getLast? = some '\n'
  · rw [if_pos hl, hbase]
    have hlast := splitOnNl_getLast_nl s hl
    have hne := splitOnNl_ne_nil s
    have hdec : splitOnNl s = (splitOnNl s).dropLast ++ [[]] := by
      conv_lhs => rw [← List.dropLast_append_getLast hne]
      have : (splitOnNl s).getLast hne = [] := by
        have := List.getLast?_eq_getLast_of_ne_nil hne
        rw [this] at hlast
        exact (Option.some.injEq _ _ ▸ hlast : _)
      rw [this]
    conv_lhs => rw [hdec]
    rw [List.map_append, List.sum_append]
    simp [countOcc_nil, hasPre_nil_false p hp]
  · rw [if_neg hl]
    by_cases hs : s = []
    · subst hs
      simp [countOcc_nil, hasPre_nil_false p hp]
    · rw [if_neg hs]
      exact hbase

theorem splitLines_no_nl (s : Str) : ∀ l ∈ splitLines s, ('\n' : Char) ∉ l := by
  rw [splitLines]
  by_cases h1 : s.getLast? = some '\n'
  · rw [if_pos h1]
    intro l hl
    exact splitOnNl_no_nl s l (List.mem_of_mem_dropLast hl)
  · rw [if_neg h1]
    by_cases h2 : s = []
    · rw [if_pos h2]
      intro l hl
      simp at hl

    · rw [if_neg h2]
      exact splitOnNl_no_nl s

theorem insertAt_ne_nil {α : Type} (a : α) : ∀ (n : Nat) (l : List α),
    insertAt n a l ≠ [] := by
  intro n
  induction n with
  | zero => intro l; simp [insertAt]
  | succ m ih =>
    intro l
    cases l with
    | nil => simp [insertAt]
    | cons x xs => simp [insertAt]

theorem insertAt_mem {α : Type} (a : α) : ∀ (n : Nat) (l : List α) (x : α),
    x ∈ insertAt n a l → x = a ∨ x ∈ l := by
  intro n
  induction n with
  | zero =>
    intro l x hx
    rcases List.mem_cons.mp hx with rfl | hm
    · exact Or.inl rfl
    · exact Or.inr hm
  | succ m ih =>
    intro l x hx
    cases l with
    | nil =>
      simp [insertAt] at hx
      exact Or.inl hx
    | cons y ys =>
      rw [insertAt] at hx
      rcases List.mem_cons.mp hx with rfl | hm
      · exact Or.inr (List.mem_cons_self x ys)
      · rcases ih ys x hm with rfl | hm2
        · exact Or.inl rfl
        · exact Or.inr (List.mem_cons_of_mem y hm2)

/-- Claim C1, amended: the guarantee holds of the jira resolution step of
    write_pr_description, before the subsequent file cleanup which may
    truncate it away, and for ticket values free of brackets and newlines:
    when the raw text holds the placeholder exactly once, the resolved text
    holds exactly one line carrying the canonical jira line and no
    occurrence of the placeholder; and when no line holds the placeholder
    or the canonical line, the canonical line is inserted directly after
    the first Description heading, or at the very top without one, all
    other lines unchanged. -/
theorem c1_amended (t desc : Str)
    (hlb : ('[' : Char) ∉ t) (hrb : (']' : Char) ∉ t) (hnl : ('\n' : Char) ∉ t) :
    (countOcc (jiraPh t) desc = 1 →
      (splitOnNl (jiraResolve t desc)).countP
          (fun l => subStr (jiraCanon t) l) = 1 ∧
      countOcc (jiraPh t) (jiraResolve t desc) = 0) ∧
    ((∀ l ∈ splitLines desc,
        subStr (jiraPh t) l = false ∧ subStr (jiraCanon t) l = false) →
      splitOnNl (jiraResolve t desc) =
        (match (splitLines desc).findIdx? isDescHeading with
         | some i => insertAt (i + 1) (jiraCanon t) (splitLines desc)
         | none => insertAt 0 (jiraCanon t) (splitLines desc))) := by
  have hpne := jiraPh_ne_nil t
  have hphnl := jiraPh_not_nl t hnl
  constructor
  · intro hcount
    have hsum : ((splitLines desc).map (countOcc (jiraPh t))).sum = 1 := by
      rw [← countOcc_splitLines (jiraPh t) hpne hphnl desc]
      exact hcount
    obtain ⟨hc1, hc2, hc3⟩ := jiraScan_main (jiraPh t) (jiraCanon t) hpne
      (fun l hl => jira_replace_clean t l hlb hrb hl) (splitLines desc) hsum
    have hres : jiraResolve t desc =
        joinNl (jiraScan (jiraPh t) (jiraCanon t) (splitLines desc) false).1 := by
      simp only [jiraResolve, hc3, if_true]
    have hnn : ∀ l ∈ (jiraScan (jiraPh t) (jiraCanon t) (splitLines desc) false).1,
        ('\n' : Char) ∉ l := by
      intro l hl
      rcases jiraScan_mem (jiraPh t) (jiraCanon t) (splitLines desc) false l hl with
        hm | ⟨l0, hl0, rfl⟩
      · exact splitLines_no_nl desc l hm
      · intro hmem
        rcases replaceAll_mem (jiraPh t) (jiraCanon t) l0 '\n' hmem with hm2 | hm2
        · exact splitLines_no_nl desc l0 hl0 hm2
        · exact jiraCanon_not_nl t hnl hm2
    have hnen : (jiraScan (jiraPh t) (jiraCanon t) (splitLines desc) false).1 ≠ [] := by
      intro hnil
      rw [hnil] at hc1
      simp at hc1
    constructor
    · rw [hres, splitOnNl_joinNl _ hnen hnn]
      exact hc1
    · rw [hres, countOcc_joinNl (jiraPh t) hpne hphnl]
      apply List.sum_eq_zero
      intro x hx
      obtain ⟨l, hl, rfl⟩ := List.mem_map.mp hx
      exact hc2 l hl
  · intro hnone
    have hid := jiraScan_id (jiraPh t) (jiraCanon t) (splitLines desc) false hnone
    have hcannl := jiraCanon_not_nl t hnl
    have hres : jiraResolve t desc =
        joinNl (match (splitLines desc).findIdx? isDescHeading with
          | some i => insertAt (i + 1) (jiraCanon t) (splitLines desc)
          | none => insertAt 0 (jiraCanon t) (splitLines desc)) := by
      simp only [jiraResolve, hid, Bool.false_eq_true, if_false]
    rw [hres]
    cases hfind : (splitLines desc).findIdx? isDescHeading with
    | some i =>
      exact splitOnNl_joinNl _ (insertAt_ne_nil _ _ _) (fun l hl => by
        rcases insertAt_mem (jiraCanon t) (i + 1) (splitLines desc) l hl with rfl | hm
        · exact hcannl
        · exact splitLines_no_nl desc l hm)
    | none =>
      exact splitOnNl_joinNl _ (insertAt_ne_nil _ _ _) (fun l hl => by
        rcases insertAt_mem (jiraCanon t) 0 (splitLines desc) l hl with rfl | hm
        · exact hcannl
        · exact splitLines_no_nl desc l hm)

/-- Claim C1, counterexample to the claim as stated: first, over the whole
    sanitization pipeline of write_pr_description the guarantee fails even
    for an ordinary ticket, because the file cleanup truncates after the
    jira step: a raw text carrying a fence line and then the placeholder
    once resolves to the empty file, holding the canonical line zero times.
    Second, the resolution step itself can leave a placeholder occurrence
    behind for a ticket value containing brackets. -/
theorem c1_counterexample :
    (countOcc (jiraPh (str "TEST-123")) (str "```\n[TEST-123]") = 1 ∧
     writePrDescription (str "```\n[TEST-123]") (some (str "TEST-123")) none =
       str "" ∧
     subStr (jiraCanon (str "TEST-123"))
       (writePrDescription (str "```\n[TEST-123]") (some (str "TEST-123")) none) =
       false) ∧
    (countOcc (jiraPh (str "]Jira ticket: ")) (str "[][]Jira ticket: ]") = 1 ∧
     countOcc (jiraPh (str "]Jira ticket: "))
       (jiraResolve (str "]Jira ticket: ") (str "[][]Jira ticket: ]")) = 1) := by
  refine ⟨⟨by decide, by decide, by decide⟩, by decide, by decide⟩

/-- Claim C1, witness: the amended statement at the ticket TEST-123 and a
    three line raw text carrying the placeholder once. -/
theorem c1_witness :
    (('[' : Char) ∉ str "TEST-123" ∧ (']' : Char) ∉ str "TEST-123" ∧
     ('\n' : Char) ∉ str "TEST-123" ∧
     countOcc (jiraPh (str "TEST-123")) (str "hello\n[TEST-123]\nworld") = 1) ∧
    (splitOnNl (jiraResolve (str "TEST-123") (str "hello\n[TEST-123]\nworld"))).countP
        (fun l => subStr (jiraCanon (str "TEST-123")) l) = 1 ∧
    countOcc (jiraPh (str "TEST-123"))
      (jiraResolve (str "TEST-123") (str "hello\n[TEST-123]\nworld")) = 0 :=
  ⟨⟨by decide, by decide, by decide, by decide⟩,
   (c1_amended (str "TEST-123") (str "hello\n[TEST-123]\nworld")
     (by decide) (by decide) (by decide)).1 (by decide)⟩

/-! ## Lemmas for the truncation pipeline of clean_pr_description_file -/

theorem findIdx?_shift (P : Str → Bool) : ∀ (ls : List Str) (n : Nat),
    List.findIdx? P ls (n + 1) = (List.findIdx? P ls n).map (· + 1) := by
  intro ls
  induction ls with
  | nil => intro n; rfl
  | cons l ls2 ih =>
    intro n
    rw [List.findIdx?_cons, List.findIdx?_cons]
    by_cases h : P l = true
    · rw [if_pos h, if_pos h]
      rfl
    · rw [if_neg h, if_neg h, ih (n + 1), ih n]

theorem truncAt_eq_takeWhile : ∀ lines : List Str,
    truncAt lines = lines.takeWhile (fun l => !forbiddenLine l) := by
  intro lines
  induction lines with
  | nil => rfl
  | cons l ls ih =>
    rw [truncAt] at ih ⊢
    rw [List.findIdx?_cons]
    by_cases h : forbiddenLine l = true
    · rw [if_pos h]
      rw [List.takeWhile_cons_of_neg (by simp [h])]
      rfl
    · rw [if_neg h]
      rw [show (0 : Nat) + 1 = 0 + 1 from rfl, findIdx?_shift]
      rw [List.takeWhile_cons_of_pos (by simp [Bool.not_eq_true] at h; simp [h])]
      cases hf : List.findIdx? forbiddenLine ls 0 with
      | none =>
        rw [hf] at ih
        simp only [Option.map_none']
        rw [← ih]
      | some j =>
        rw [hf] at ih
        simp only [Option.map_some']
        rw [List.take_succ_cons, ← ih]

theorem takeWhile_prefix_take (P : Str → Bool) : ∀ (lines : List Str) (i : Nat)
    (h : i < lines.length), P (lines.get ⟨i, h⟩) = true →
    lines.takeWhile (fun l => !P l) <+: lines.take i := by
  intro lines
  induction lines with
  | nil => intro i h; simp at h
  | cons l ls ih =>
    intro i h hp
    cases i with
    | zero =>
      simp only [List.get] at hp
      rw [List.takeWhile_cons_of_neg (by simp [hp])]
      simp
    | succ j =>
      simp only [List.get] at hp
      by_cases hl : P l = true
      · rw [List.takeWhile_cons_of_neg (by simp [hl])]
        simp
      · rw [Bool.not_eq_true] at hl
        rw [List.takeWhile_cons_of_pos (by simp [hl]), List.take_succ_cons]
        have hj : j < ls.length := by
          simpa using Nat.lt_of_succ_lt_succ h
        obtain ⟨tl, htl⟩ := ih j hj hp
        exact ⟨tl, by rw [List.cons_append, htl]⟩

theorem hasPre_map (f : Char → Char) (p s : Str) (h : hasPre p s = true) :
    hasPre (p.map f) (s.map f) = true := by
  obtain ⟨t, rfl⟩ := (hasPre_iff p s).mp h
  exact (hasPre_iff _ _).mpr ⟨t.map f, by rw [List.map_append]⟩

theorem subStrCI_of_subStr (p l : Str) (hfix : lower p = p)
    (h : subStr p l = true) : subStrCI p l = true := by
  rw [subStrCI, subStr_iff]
  rw [subStr_iff] at h
  obtain ⟨i, hi, hp⟩ := (countOcc_pos_iff p l).mp h
  apply (countOcc_pos_iff p (lower l)).mpr
  refine ⟨i, by simpa [lower] using hi, ?_⟩
  have h2 := hasPre_map lowChar p (l.drop i) hp
  rw [List.map_drop] at h2
  rw [show List.map lowChar p = p from hfix] at h2
  exact h2

theorem forbiddenLine_of_fence (l : Str) (h : subStr (str "```") l = true) :
    forbiddenLine l = true := by
  rw [forbiddenLine]
  rw [subStrCI_of_subStr (str "```") l (by decide) h]
  simp

theorem serverForbidden_of_fence (l : Str) (h : subStr (str "```") l = true) :
    serverForbidden l = true := by
  rw [serverForbidden]
  rw [subStrCI_of_subStr (str "```") l (by decide) h]
  simp

theorem dropTrailBlank_isPre (L : List Str) : dropTrailBlank L <+: L := by
  refine ⟨(L.reverse.takeWhile isBlankLine).reverse, ?_⟩
  rw [dropTrailBlank, ← List.reverse_append, List.takeWhile_append_dropWhile]
  exact List.reverse_reverse L

/-- Claim C2: the client sanitizer truncates at the first line matching the
    forbidden content pattern, keeping exactly the lines before it: the
    truncation equals a takeWhile on the complement of the pattern;
    consequently, when line i carries a fence the cleaned file text is the
    flattening of a prefix of the first i lines, and the truncation kept by
    the server side filter is likewise a prefix of the first i lines. -/
theorem c2_theorem :
    (∀ lines : List Str,
      truncAt lines = lines.takeWhile (fun l => !forbiddenLine l)) ∧
    (∀ (content : Str) (i : Nat) (h : i < (linesKeepNl content).length),
      subStr (str "```") ((linesKeepNl content).get ⟨i, h⟩) = true →
      ∃ pre, pre <+: (linesKeepNl content).take i ∧
        cleanFile content none = pre.flatten) ∧
    (∀ (lines : List Str) (i : Nat) (h : i < lines.length),
      subStr (str "```") (lines.get ⟨i, h⟩) = true →
      lines.takeWhile (fun l => !serverForbidden l) <+: lines.take i) := by
  refine ⟨truncAt_eq_takeWhile, ?_, ?_⟩
  · intro content i h hfence
    refine ⟨dropTrailBlank (truncAt (linesKeepNl content)), ?_, rfl⟩
    apply (dropTrailBlank_isPre _).trans
    rw [truncAt_eq_takeWhile]
    exact takeWhile_prefix_take forbiddenLine (linesKeepNl content) i h
      (forbiddenLine_of_fence _ hfence)
  · intro lines i h hfence
    exact takeWhile_prefix_take serverForbidden lines i h
      (serverForbidden_of_fence _ hfence)

/-- Claim C2, witness: the statement at a three line text whose middle line
    is a fence. -/
theorem c2_witness :
    (1 < (linesKeepNl (str "a\n```\nb")).length ∧
     subStr (str "```") ((linesKeepNl (str "a\n```\nb")).get ⟨1, by decide⟩) = true) ∧
    (∃ pre, pre <+: (linesKeepNl (str "a\n```\nb")).take 1 ∧
      cleanFile (str "a\n```\nb") none = pre.flatten) :=
  ⟨⟨by decide, by decide⟩,
   c2_theorem.2.1 (str "a\n```\nb") 1 (by decide) (by decide)⟩

/-! ## Lemmas for the prefix normalizer of main.py -/

theorem bump_cons_self (k : Str) (v : Nat) (m0 : List (Str × Nat)) :
    bump ((k, v) :: m0) k = (k, v + 1) :: m0 := by
  simp [bump]

theorem bump_cons_ne (k c : Str) (v : Nat) (m0 : List (Str × Nat)) (h : k ≠ c) :
    bump ((k, v) :: m0) c = (k, v) :: bump m0 c := by
  simp [bump, h]

theorem foldl_bump_cons (k : Str) : ∀ (cs : List Str) (v : Nat)
    (m0 : List (Str × Nat)),
    List.foldl bump ((k, v) :: m0) cs =
      (k, v + cs.count k) :: List.foldl bump m0 (cs.filter (fun x => x ≠ k)) := by
  intro cs
  induction cs with
  | nil => intro v m0; simp
  | cons c cs2 ih =>
    intro v m0
    rw [List.foldl_cons]
    by_cases hck : k = c
    · subst hck
      rw [bump_cons_self, ih (v + 1) m0, List.count_cons_self,
        List.filter_cons_of_neg (by simp)]
      have harith : v + 1 + cs2.count k = v + (cs2.count k + 1) := by omega
      rw [harith]
    · rw [bump_cons_ne k c v m0 hck, ih v (bump m0 c),
        List.count_cons_of_ne (fun hkc => hck hkc),
        List.filter_cons_of_pos (by simp [Ne.symm hck]), List.foldl_cons]

theorem find?_congr_mem (p q : Str → Bool) : ∀ l : List Str,
    (∀ x ∈ l, p x = q x) → l.find? p = l.find? q := by
  intro l
  induction l with
  | nil => intro _; rfl
  | cons a l2 ih =>
    intro h
    have ha := h a (List.mem_cons_self a l2)
    by_cases hp : p a = true
    · rw [List.find?_cons_of_pos _ hp, List.find?_cons_of_pos _ (ha ▸ hp)]
    · rw [Bool.not_eq_true] at hp
      rw [List.find?_cons_of_neg _ (by simp [hp]),
        List.find?_cons_of_neg _ (by simp [← ha, hp])]
      exact ih (fun x hx => h x (List.mem_cons_of_mem a hx))

theorem buildCounts_find_aux : ∀ (n : Nat) (cands : List Str),
    cands.length ≤ n →
    ((buildCounts cands).find? (fun kv => decide (1 < kv.2))).map
        (fun kv => kv.1) =
      cands.find? (fun p => decide (1 < cands.count p)) := by
  intro n
  induction n with
  | zero =>
    intro cands h
    have : cands = [] := List.eq_nil_of_length_eq_zero (by omega)
    subst this
    rfl
  | succ n ih =>
    intro cands hlen
    cases cands with
    | nil => rfl
    | cons c cs =>
      have hbc : buildCounts (c :: cs) =
          (c, 1 + cs.count c) :: buildCounts (cs.filter (fun x => x ≠ c)) := by
        rw [buildCounts, List.foldl_cons]
        rw [show bump [] c = [(c, 1)] from rfl]
        exact foldl_bump_cons c cs 1 []
      rw [hbc]
      by_cases hrep : 0 < cs.count c
      · rw [List.find?_cons_of_pos _ (by simp only [decide_eq_true_eq]; omega)]
        rw [List.find?_cons_of_pos _ (by
          simp only [decide_eq_true_eq, List.count_cons_self]
          omega)]
        rfl
      · have hc0 : cs.count c = 0 := by omega
        have hnotin : c ∉ cs := List.count_eq_zero.mp hc0
        have hfilter : cs.filter (fun x => x ≠ c) = cs :=
          List.filter_eq_self.mpr (fun x hx => by
            simp
            intro hxc
            exact hnotin (hxc ▸ hx))
        rw [List.find?_cons_of_neg _ (by simp only [decide_eq_true_eq]; omega)]
        rw [List.find?_cons_of_neg _ (by
          simp only [decide_eq_true_eq, List.count_cons_self, hc0]
          omega)]
        rw [hfilter]
        rw [ih cs (by simp at hlen; omega)]
        apply find?_congr_mem
        intro x hx
        have hxc : x ≠ c := fun hxx => hnotin (hxx ▸ hx)
        rw [List.count_cons_of_ne hxc]

theorem commonPfx_eq_find (commits : List Str) :
    commonPfx commits =
      (candsOf commits).find?
        (fun p => decide (1 < (candsOf commits).count p)) := by
  rw [commonPfx]
  exact buildCounts_find_aux (candsOf commits).length (candsOf commits)
    (le_refl _)

theorem find?_filterMap_bind (f : Str → Option Str) (q : Str → Bool) :
    ∀ l : List Str,
    (l.filterMap f).find? q =
      (l.find? (fun c => match f c with
        | some x => q x
        | none => false)).bind f := by
  intro l
  induction l with
  | nil => rfl
  | cons c l2 ih =>
    cases hfc : f c with
    | none =>
      rw [List.filterMap_cons_none hfc,
        List.find?_cons_of_neg _ (by simp [hfc]), ih]
    | some x =>
      rw [List.filterMap_cons_some hfc]
      by_cases hq : q x = true
      · rw [List.find?_cons_of_pos _ hq,
          List.find?_cons_of_pos _ (by simp [hfc, hq]), Option.some_bind, hfc]
      · rw [Bool.not_eq_true] at hq
        rw [List.find?_cons_of_neg _ (by simp [hq]),
          List.find?_cons_of_neg _ (by simp [hfc, hq]), ih]

theorem pyStrip_mem (x : Char) (s : Str) (h : x ∈ pyStrip s) : x ∈ s := by
  rw [pyStrip, rTrim] at h
  rw [List.mem_reverse] at h
  have h2 : x ∈ (lTrim s).reverse :=
    ((List.dropWhile_suffix pyWs).sublist).mem h
  rw [List.mem_reverse] at h2
  exact ((List.dropWhile_suffix pyWs).sublist).mem h2

theorem candOf_no_colon (c p : Str) (h : candOf c = some p) :
    (':' : Char) ∉ p := by
  rw [candOf] at h
  by_cases hc : subStr [':'] c = true
  · rw [if_pos hc] at h
    intro hmem
    have h2 := pyStrip_mem ':' _ ((Option.some.injEq _ _).mp h ▸ hmem)
    exact absurd (List.mem_takeWhile_imp h2) (by simp)
  · rw [Bool.not_eq_true] at hc
    rw [hc] at h
    exact absurd h (by simp)

theorem dropWhile_append_all (P : Char → Bool) : ∀ (x y : Str),
    (∀ a ∈ x, P a = true) → (x ++ y).dropWhile P = y.dropWhile P := by
  intro x
  induction x with
  | nil => intro y _; rfl
  | cons a x2 ih =>
    intro y h
    rw [List.cons_append, List.dropWhile_cons_of_pos (h a (List.mem_cons_self a x2))]
    exact ih y (fun b hb => h b (List.mem_cons_of_mem a hb))

theorem afterColon_eq_drop (p c : Str) (hpc : (':' : Char) ∉ p)
    (h : hasPre (p ++ [':']) c = true) : afterColon c = c.drop (p.length + 1) := by
  obtain ⟨rest, hrest⟩ := (hasPre_iff _ c).mp h
  subst hrest
  rw [afterColon]
  rw [List.append_assoc, List.singleton_append]
  rw [dropWhile_append_all _ p (':' :: rest) (fun a ha => by
    simp
    intro haa
    exact hpc (haa ▸ ha))]
  rw [List.dropWhile_cons_of_neg (by simp)]
  rw [show p.length + 1 = p.length + 1 from rfl]
  rw [show (p ++ ':' :: rest).drop (p.length + 1) = rest from by
    rw [show p.length + 1 = p.length + 1 from rfl]
    rw [List.drop_append 1]
    rfl]
  rfl

/-- Claim C10: prefix selection is deterministic: it returns the stripped
    candidate of the earliest appearing commit, in batch order, whose
    candidate occurs more than once among all candidates, reflecting the
    insertion ordered counting dict. -/
theorem c10_theorem : ∀ commits : List Str,
    commonPfx commits =
      (commits.find? (fun c =>
        match candOf c with
        | some p => decide (1 < (candsOf commits).count p)
        | none => false)).bind candOf := by
  intro commits
  rw [commonPfx_eq_find]
  rw [candsOf]
  exact find?_filterMap_bind candOf _ commits

/-- Claim C3, amended: the candidate of a subject containing a colon is the
    whitespace stripped text before the first colon; the selected common
    prefix is the first candidate, in insertion order, whose count exceeds
    one, and it repeats; when it is nonempty, every subject starting with
    the prefix and a colon loses that segment and the surrounding
    whitespace while all other subjects stay unchanged; without a repeating
    candidate nothing is selected and no subject is altered. -/
theorem c3_amended : ∀ commits : List Str,
    (commonPfx commits = none ↔
      ∀ p ∈ candsOf commits, (candsOf commits).count p ≤ 1) ∧
    (commonPfx commits = none → cleanedCommits commits = commits) ∧
    (∀ p : Str, commonPfx commits = some p →
      1 < (candsOf commits).count p ∧
      (p ≠ [] → ∀ (i : Nat) (c : Str), commits[i]? = some c →
        (hasPre (p ++ [':']) c = true →
          (cleanedCommits commits)[i]? =
            some (pyStrip (c.drop (p.length + 1)))) ∧
        (hasPre (p ++ [':']) c = false →
          (cleanedCommits commits)[i]? = some c))) := by
  intro commits
  refine ⟨?_, ?_, ?_⟩
  · rw [commonPfx_eq_find]
    rw [List.find?_eq_none]
    constructor
    · intro h p hp
      have h2 := h p hp
      simp only [decide_eq_true_eq] at h2
      omega
    · intro h p hp
      have h2 := h p hp
      simp only [decide_eq_true_eq]
      omega
  · intro h
    rw [cleanedCommits, h]
  · intro p hp
    have hfind : (candsOf commits).find?
        (fun q => decide (1 < (candsOf commits).count q)) = some p := by
      rw [← commonPfx_eq_find]
      exact hp
    have hcount : 1 < (candsOf commits).count p := by
      have h2 := List.find?_some hfind
      simpa using h2
    refine ⟨hcount, ?_⟩
    intro hpne i c hic
    have hmem := List.mem_of_find?_eq_some hfind
    rw [candsOf] at hmem
    obtain ⟨c0, _, hc0⟩ := List.mem_filterMap.mp hmem
    have hnc : (':' : Char) ∉ p := candOf_no_colon c0 p hc0
    have hclean : cleanedCommits commits = commits.map (fun x =>
        if hasPre (p ++ [':']) x then pyStrip (afterColon x) else x) := by
      rw [cleanedCommits, hp]
      exact if_neg hpne
    constructor
    · intro htrue
      rw [hclean, List.getElem?_map, hic, Option.map_some']
      rw [show (if hasPre (p ++ [':']) c = true then pyStrip (afterColon c)
          else c) = pyStrip (afterColon c) from if_pos htrue]
      rw [afterColon_eq_drop p c hnc htrue]
    · intro hfalse
      rw [hclean, List.getElem?_map, hic, Option.map_some']
      rw [if_neg (by simp [hfalse])]

/-- Claim C3, counterexample to the claim as stated: with the raw unstripped
    candidate of the claim, the batch of two subjects bearing feat and a
    space before the colon would select the prefix feat with the trailing
    space and strip both subjects; the code strips the candidate, selects
    plain feat, and leaves both subjects unchanged. -/
theorem c3_counterexample :
    commonPfx [str "feat : a", str "feat : b"] = some (str "feat") ∧
    cleanedCommits [str "feat : a", str "feat : b"] =
      [str "feat : a", str "feat : b"] ∧
    claimCommonPfx [str "feat : a", str "feat : b"] = some (str "feat ") ∧
    claimCleaned [str "feat : a", str "feat : b"] = [str "a", str "b"] ∧
    claimCommonPfx [str "feat : a", str "feat : b"] ≠
      commonPfx [str "feat : a", str "feat : b"] ∧
    claimCleaned [str "feat : a", str "feat : b"] ≠
      cleanedCommits [str "feat : a", str "feat : b"] := by
  refine ⟨by decide, by decide, by decide, by decide, by decide, by decide⟩

/-- Claim C3, witness: the amended statement at a three commit batch with a
    twice repeating feat candidate. -/
theorem c3_witness :
    (commonPfx [str "feat: x", str "fix: z", str "feat: y"] = some (str "feat") ∧
     str "feat" ≠ ([] : Str) ∧
     [str "feat: x", str "fix: z", str "feat: y"][0]? = some (str "feat: x") ∧
     hasPre (str "feat" ++ [':']) (str "feat: x") = true) ∧
    (cleanedCommits [str "feat: x", str "fix: z", str "feat: y"])[0]? =
      some (pyStrip ((str "feat: x").drop ((str "feat").length + 1))) :=
  ⟨⟨by decide, by decide, by decide, by decide⟩,
   (((c3_amended [str "feat: x", str "fix: z", str "feat: y"]).2.2 (str "feat")
      (by decide)).2 (by decide) 0 (str "feat: x") (by decide)).1 (by decide)⟩

/-! ## Lemmas for the prompt listings -/

theorem goFormat_getElem : ∀ (ls : List Str) (n i : Nat),
    (goFormat n ls)[i]? = (ls[i]?).map (fun c => numTag (n + i) ++ c) := by
  intro ls
  induction ls with
  | nil => intro n i; simp [goFormat]
  | cons c cs ih =>
    intro n i
    cases i with
    | zero => simp [goFormat]
    | succ j =>
      rw [goFormat]
      simp only [List.getElem?_cons_succ]
      rw [ih (n + 1) j]
      have : n + 1 + j = n + (j + 1) := by omega
      rw [this]

/-- Claim C4, counterexample to the claim as stated: the pr_mpc_server
    prompt builder lists the subjects in batch order, not reversed: on a
    two commit batch the listing keeps the oldest subject first. -/
theorem c4_counterexample :
    serverCommitText batchTwo = str "first\nsecond" ∧
    (batchTwo.map (fun c => c.subject)).reverse = [str "second", str "first"] ∧
    splitOnNl (serverCommitText batchTwo) = [str "first", str "second"] ∧
    splitOnNl (serverCommitText batchTwo) ≠
      (batchTwo.map (fun c => c.subject)).reverse := by
  refine ⟨by decide, by decide, by decide, by decide⟩

/-- Claim C4, amended: the main.py prompt builder lists the cleaned commit
    subjects most recent first, exactly the input batch reversed, one
    numbered line per subject; the pr_mpc_server variant lists the subjects
    in batch order, oldest first. -/
theorem c4_amended :
    (∀ (cleaned : List Str) (i : Nat),
      (formatLinesMain cleaned)[i]? =
        (cleaned.reverse[i]?).map (fun c => numTag (1 + i) ++ c)) ∧
    (∀ commits : List CommitD,
      (∀ c ∈ commits, ('\n' : Char) ∉ c.subject) → commits ≠ [] →
      splitOnNl (serverCommitText commits) =
        commits.map (fun c => c.subject)) := by
  constructor
  · intro cleaned i
    rw [formatLinesMain]
    exact goFormat_getElem cleaned.reverse 1 i
  · intro commits hnl hne
    rw [serverCommitText]
    apply splitOnNl_joinNl
    · simp [hne]
    · intro l hl
      obtain ⟨c, hc, rfl⟩ := List.mem_map.mp hl
      exact hnl c hc

/-- Claim C4, witness: the amended statement for the server listing at the
    two commit batch. -/
theorem c4_witness :
    ((∀ c ∈ batchTwo, ('\n' : Char) ∉ c.subject) ∧ batchTwo ≠ []) ∧
    splitOnNl (serverCommitText batchTwo) =
      batchTwo.map (fun c => c.subject) :=
  ⟨⟨by decide, by decide⟩, c4_amended.2 batchTwo (by decide) (by decide)⟩

/-! ## Lemmas for the retry loop of main.py -/

theorem retryRun_cases (f : Nat → LlmTry) :
    (∃ t, f 0 = LlmTry.ok t ∧ retryRun f = (Except.ok t, [])) ∨
    (∃ m0, f 0 = LlmTry.err m0 ∧ subStr (str "429") m0 = false ∧
      retryRun f = (Except.error m0, [])) ∨
    (∃ m0 t, f 0 = LlmTry.err m0 ∧ subStr (str "429") m0 = true ∧
      f 1 = LlmTry.ok t ∧ retryRun f = (Except.ok t, [30])) ∨
    (∃ m0 m1, f 0 = LlmTry.err m0 ∧ subStr (str "429") m0 = true ∧
      f 1 = LlmTry.err m1 ∧ subStr (str "429") m1 = false ∧
      retryRun f = (Except.error m1, [30])) ∨
    (∃ m0 m1 t, f 0 = LlmTry.err m0 ∧ subStr (str "429") m0 = true ∧
      f 1 = LlmTry.err m1 ∧ subStr (str "429") m1 = true ∧
      f 2 = LlmTry.ok t ∧ retryRun f = (Except.ok t, [30, 60])) ∨
    (∃ m0 m1 m2, f 0 = LlmTry.err m0 ∧ subStr (str "429") m0 = true ∧
      f 1 = LlmTry.err m1 ∧ subStr (str "429") m1 = true ∧
      f 2 = LlmTry.err m2 ∧ retryRun f = (Except.error m2, [30, 60])) := by
  rcases hf0 : f 0 with t0 | m0
  · exact Or.inl ⟨t0, rfl, by simp [retryRun, retryGo, hf0]⟩
  · by_cases h0 : subStr (str "429") m0 = true
    · rcases hf1 : f 1 with t1 | m1
      · refine Or.inr (Or.inr (Or.inl ⟨m0, t1, rfl, h0, rfl, ?_⟩))
        simp [retryRun, retryGo, hf0, hf1, h0]
      · by_cases h1 : subStr (str "429") m1 = true
        · rcases hf2 : f 2 with t2 | m2
          · refine Or.inr (Or.inr (Or.inr (Or.inr (Or.inl
              ⟨m0, m1, t2, rfl, h0, rfl, h1, rfl, ?_⟩))))
            simp [retryRun, retryGo, hf0, hf1, hf2, h0, h1]
          · refine Or.inr (Or.inr (Or.inr (Or.inr (Or.inr
              ⟨m0, m1, m2, rfl, h0, rfl, h1, rfl, ?_⟩))))
            simp [retryRun, retryGo, hf0, hf1, hf2, h0, h1]
        · rw [Bool.not_eq_true] at h1
          refine Or.inr (Or.inr (Or.inr (Or.inl ⟨m0, m1, rfl, h0, rfl, h1, ?_⟩)))
          simp [retryRun, retryGo, hf0, hf1, h0, h1]
    · rw [Bool.not_eq_true] at h0
      refine Or.inr (Or.inl ⟨m0, rfl, h0, ?_⟩)
      simp [retryRun, retryGo, hf0, h0]

/-- Claim C5, counterexample to the claim as stated: with every attempt
    failing on a rate limit, the loop sleeps 30 then 60 and fails, a worst
    case total wait of 90 time units, not 30 plus 60 plus 120. -/
theorem c5_counterexample :
    (retryRun (fun _ => LlmTry.err (str "429 quota"))).2 = [30, 60] ∧
    (retryRun (fun _ => LlmTry.err (str "429 quota"))).2.sum = 90 ∧
    (retryRun (fun _ => LlmTry.err (str "429 quota"))).2.sum ≠ 30 + 60 + 120 := by
  refine ⟨by decide, by decide, by decide⟩

/-- Claim C5, amended: on rate limit failures the generator retries within a
    bound of three attempts, sleeping 30 then 60 time units, a worst case
    total wait of 90 before failing; a first attempt failure without the
    rate limit marker is surfaced immediately as the 500 generation error
    with no sleep; three rate limited attempts surface the final failure
    after exactly the sleeps 30 and 60. -/
theorem c5_amended : ∀ f : Nat → LlmTry,
    ((retryRun f).2 = [] ∨ (retryRun f).2 = [30] ∨ (retryRun f).2 = [30, 60]) ∧
    (retryRun f).2.sum ≤ 90 ∧
    (∀ m, f 0 = LlmTry.err m → subStr (str "429") m = false →
      generateDescMain f =
        (Except.error (500, str "Error generating PR description: " ++ m), [])) ∧
    (∀ m0 m1 m2, f 0 = LlmTry.err m0 → f 1 = LlmTry.err m1 →
      f 2 = LlmTry.err m2 → subStr (str "429") m0 = true →
      subStr (str "429") m1 = true →
      retryRun f = (Except.error m2, [30, 60])) := by
  intro f
  have hc := retryRun_cases f
  refine ⟨?_, ?_, ?_, ?_⟩
  · rcases hc with ⟨t, _, hr⟩ | ⟨m0, _, _, hr⟩ | ⟨m0, t, _, _, _, hr⟩ |
      ⟨m0, m1, _, _, _, _, hr⟩ | ⟨m0, m1, t, _, _, _, _, _, hr⟩ |
      ⟨m0, m1, m2, _, _, _, _, _, hr⟩ <;> rw [hr]
    · exact Or.inl rfl
    · exact Or.inl rfl
    · exact Or.inr (Or.inl rfl)
    · exact Or.inr (Or.inl rfl)
    · exact Or.inr (Or.inr rfl)
    · exact Or.inr (Or.inr rfl)
  · rcases hc with ⟨t, _, hr⟩ | ⟨m0, _, _, hr⟩ | ⟨m0, t, _, _, _, hr⟩ |
      ⟨m0, m1, _, _, _, _, hr⟩ | ⟨m0, m1, t, _, _, _, _, _, hr⟩ |
      ⟨m0, m1, m2, _, _, _, _, _, hr⟩ <;> rw [hr] <;> simp
  · intro m hm h429
    rcases hc with ⟨t, hf, hr⟩ | ⟨m0, hf, hs, hr⟩ | ⟨m0, t, hf, hs, _, hr⟩ |
      ⟨m0, m1, hf, hs, _, _, hr⟩ | ⟨m0, m1, t, hf, hs, _, _, _, hr⟩ |
      ⟨m0, m1, m2, hf, hs, _, _, _, hr⟩
    · rw [hm] at hf
      exact absurd hf (by simp)
    · rw [hm] at hf
      have : m = m0 := by injection hf
      subst this
      rw [generateDescMain, hr]
    · rw [hm] at hf
      have : m = m0 := by injection hf
      subst this
      rw [hs] at h429
      exact absurd h429 (by simp)
    · rw [hm] at hf
      have : m = m0 := by injection hf
      subst this
      rw [hs] at h429
      exact absurd h429 (by simp)
    · rw [hm] at hf
      have : m = m0 := by injection hf
      subst this
      rw [hs] at h429
      exact absurd h429 (by simp)
    · rw [hm] at hf
      have : m = m0 := by injection hf
      subst this
      rw [hs] at h429
      exact absurd h429 (by simp)
  · intro m0 m1 m2 hf0 hf1 hf2 h0 h1
    rcases hc with ⟨t, hf, hr⟩ | ⟨n0, hf, hs, hr⟩ | ⟨n0, t, hf, hs, hok, hr⟩ |
      ⟨n0, n1, hf, hs, hg1, hs1, hr⟩ | ⟨n0, n1, t, hf, hs, hg1, hs1, hok, hr⟩ |
      ⟨n0, n1, n2, hf, hs, hg1, hs1, hg2, hr⟩
    · rw [hf0] at hf
      exact absurd hf (by simp)
    · rw [hf0] at hf
      have : m0 = n0 := by injection hf
      subst this
      rw [hs] at h0
      exact absurd h0 (by simp)
    · rw [hf1] at hok
      exact absurd hok (by simp)
    · rw [hf1] at hg1
      have : m1 = n1 := by injection hg1
      subst this
      rw [hs1] at h1
      exact absurd h1 (by simp)
    · rw [hf2] at hok
      exact absurd hok (by simp)
    · rw [hf2] at hg2
      have : m2 = n2 := by injection hg2
      subst this
      exact hr

/-- Claim C5, witness: the amended statement at an attempt function whose
    first outcome is a failure without the rate limit marker. -/
theorem c5_witness :
    ((fun _ => LlmTry.err (str "boom")) 0 = LlmTry.err (str "boom") ∧
     subStr (str "429") (str "boom") = false ∧
     (retryRun (fun _ => LlmTry.err (str "boom"))).2.sum ≤ 90) ∧
    generateDescMain (fun _ => LlmTry.err (str "boom")) =
      (Except.error (500, str "Error generating PR description: " ++ str "boom"),
        []) :=
  ⟨⟨rfl, by decide, (c5_amended (fun _ => LlmTry.err (str "boom"))).2.1⟩,
   (c5_amended (fun _ => LlmTry.err (str "boom"))).2.2.1 (str "boom") rfl
     (by decide)⟩

/-- Claim C6, evaluation of the code at the failing input: with zero commits
    between the range endpoints, main.py get_commits raises its deliberate
    400 No commits found, but the blanket handler of the same function
    catches it and rewraps it as a 500, so the endpoint surfaces 500, not
    the 400 equivalent the claim states; the model is still not invoked on
    that path.  The pr_mpc_server variant has no zero commit check at all
    and does invoke the model on an empty batch. -/
theorem c6_bug_eval :
    getCommitsMainInner gitZero none =
      Except.error (some 400, str "No commits found") ∧
    getCommitsMain gitZero none =
      Except.error (500, str "Error getting commits: 400: No commits found") ∧
    (endpointMain gitZero none (fun _ => LlmTry.ok (str "text"))).2 = false ∧
    (endpointServer gitServerZero none (str "origin") (str "text")).2 = true := by
  refine ⟨by decide, by decide, by decide, by decide⟩

/-- Claim C9, counterexample to the claim as stated: the main.py collector
    queries the range upstream slash HEAD branch up to the current branch,
    not the caller supplied remote over the current branch: on a state
    where the two ranges answer different commits, the code returns the
    upstream HEAD branch answer. -/
theorem c9_counterexample :
    getCommitsMain gitRanges none = Except.ok [str "a"] ∧
    claimCollect gitRanges (str "origin") none = [str "b"] ∧
    getCommitsMain gitRanges none ≠
      Except.ok (claimCollect gitRanges (str "origin") none) := by
  refine ⟨by decide, by decide, by decide⟩

/-- Claim C9, amended: the main.py collector takes no remote argument: it
    parses the HEAD branch of the hardcoded upstream remote and queries the
    log over the range upstream slash HEAD branch up to the current branch,
    returning the nonblank lines reversed; the pr_mpc_server collector
    accepts a remote argument and ignores it. -/
theorem c9_amended :
    (∀ (g : GitMain) (n : Option Nat), g.branchRc = 0 → g.upRc = 0 →
      ∀ l, (splitOnNl g.upOut).find?
          (fun x => subStr (str "HEAD branch") x) = some l →
      subStr [':'] l = true →
      ∀ ub, ub = pyStrip ((l.dropWhile (· ≠ ':')).tail.takeWhile (· ≠ ':')) →
      ub ≠ [] →
      (g.log n (str "upstream/" ++ ub ++ str ".." ++ pyStrip g.branchOut)).1 = 0 →
      ((splitOnNl
          (g.log n (str "upstream/" ++ ub ++ str ".." ++
            pyStrip g.branchOut)).2.1).filter
        (fun x => !(pyStrip x).isEmpty)) ≠ [] →
      getCommitsMain g n = Except.ok
        (((splitOnNl
            (g.log n (str "upstream/" ++ ub ++ str ".." ++
              pyStrip g.branchOut)).2.1).filter
          (fun x => !(pyStrip x).isEmpty)).reverse)) ∧
    (∀ (g : GitServer) (n : Option Nat) (r1 r2 : Str),
      getCommitsServer g n r1 = getCommitsServer g n r2) := by
  constructor
  · intro g n hbr hup l hfind hcolon ub hub hubne hrc hne
    subst hub
    simp only [getCommitsMain, getCommitsMainInner, hbr, hup, hfind, hcolon,
      hrc, ne_eq, not_true_eq_false, Bool.true_eq_false, if_false,
      not_false_eq_true, if_true, if_neg hubne, if_neg hne]
  · intro g n r1 r2
    rfl

/-- Claim C9, witness: the amended main.py collector statement at the two
    range git state. -/
theorem c9_witness :
    (gitRanges.branchRc = 0 ∧ gitRanges.upRc = 0 ∧
     (splitOnNl gitRanges.upOut).find?
       (fun x => subStr (str "HEAD branch") x) = some (str "  HEAD branch: main") ∧
     subStr [':'] (str "  HEAD branch: main") = true ∧
     str "main" = pyStrip (((str "  HEAD branch: main").dropWhile
       (· ≠ ':')).tail.takeWhile (· ≠ ':')) ∧
     str "main" ≠ ([] : Str)) ∧
    getCommitsMain gitRanges none = Except.ok
      (((splitOnNl
          (gitRanges.log none (str "upstream/" ++ str "main" ++ str ".." ++
            pyStrip gitRanges.branchOut)).2.1).filter
        (fun x => !(pyStrip x).isEmpty)).reverse) :=
  ⟨⟨by decide, by decide, by decide, by decide, by decide, by decide⟩,
   c9_amended.1 gitRanges none (by decide) (by decide)
     (str "  HEAD branch: main") (by decide) (by decide)
     (str "main") (by decide) (by decide) (by decide) (by decide)⟩

/-! ## Substring monotonicity under context -/

theorem subStr_cons_of (p : Str) (c : Char) (s : Str) (h : subStr p s = true) :
    subStr p (c :: s) = true := by
  rw [subStr_iff] at h ⊢
  rw [countOcc_cons]
  omega

theorem subStr_append_right (p x y : Str) (h : subStr p y = true) :
    subStr p (x ++ y) = true := by
  induction x with
  | nil => simpa using h
  | cons c x2 ih =>
    rw [List.cons_append]
    exact subStr_cons_of p c (x2 ++ y) ih

theorem subStr_append_left (p x y : Str) (h : subStr p x = true) :
    subStr p (x ++ y) = true := by
  rw [subStr_iff] at h ⊢
  obtain ⟨i, hi, hpre⟩ := (countOcc_pos_iff p x).mp h
  refine (countOcc_pos_iff p (x ++ y)).mpr ⟨i, ?_, ?_⟩
  · rw [List.length_append]; omega
  · rw [List.drop_append_of_le_length hi]
    exact hasPre_append_right p _ y hpre

/-- C7: with a template given and no recognized section label anywhere in a
    small cleaned text, the template is appended after a single newline, not
    after a blank line, and the markerless template leaves the final text
    without any recognized section label, against both halves of the claim. -/
theorem c7_counterexample :
    cleanFile (str "abc") (some (str "xyz")) = str "abc\nxyz" ∧
    hasTplSection (cleanFile (str "abc") (some (str "xyz"))) = false ∧
    subStr (str "\n\n") (cleanFile (str "abc") (some (str "xyz"))) = false ∧
    subStr (str "xyz") (cleanFile (str "abc") (some (str "xyz"))) = true := by
  decide

/-- C7 amended: when a template is supplied and none of the four recognized
    section labels occurs in the cleaned line text, clean_pr_description_file
    appends one newline followed by the full raw template content; and
    whenever the supplied template itself carries a recognized section label,
    the final text contains a recognized section label, whether the label was
    already present organically or arrived with the appended template. -/
theorem c7_amended :
    (∀ content t : Str,
        hasTplSection (dropTrailBlank (truncAt (linesKeepNl content))).flatten = false →
        cleanFile content (some t) =
          (dropTrailBlank (truncAt (linesKeepNl content))).flatten ++ '\n' :: t) ∧
    (∀ content t : Str, ∀ sec ∈ tplSections, subStr sec t = true →
        ∃ sec2 ∈ tplSections, subStr sec2 (cleanFile content (some t)) = true) := by
  constructor
  · intro content t h
    show (if hasTplSection (dropTrailBlank (truncAt (linesKeepNl content))).flatten then
            dropTrailBlank (truncAt (linesKeepNl content))
          else dropTrailBlank (truncAt (linesKeepNl content)) ++ ['\n' :: t]).flatten =
        (dropTrailBlank (truncAt (linesKeepNl content))).flatten ++ '\n' :: t
    rw [h]
    rw [if_neg (by simp)]
    rw [List.flatten_append]
    simp
  · intro content t sec hsec hsub
    by_cases h : hasTplSection (dropTrailBlank (truncAt (linesKeepNl content))).flatten = true
    · have h2 : ∃ sec2 ∈ tplSections,
          subStr sec2 (dropTrailBlank (truncAt (linesKeepNl content))).flatten = true := by
        simpa [hasTplSection, List.any_eq_true] using h
      obtain ⟨sec2, hmem2, hsub2⟩ := h2
      refine ⟨sec2, hmem2, ?_⟩
      show subStr sec2
          (if hasTplSection (dropTrailBlank (truncAt (linesKeepNl content))).flatten then
            dropTrailBlank (truncAt (linesKeepNl content))
          else dropTrailBlank (truncAt (linesKeepNl content)) ++ ['\n' :: t]).flatten = true
      rw [if_pos h]
      exact hsub2
    · rw [Bool.not_eq_true] at h
      refine ⟨sec, hsec, ?_⟩
      show subStr sec
          (if hasTplSection (dropTrailBlank (truncAt (linesKeepNl content))).flatten then
            dropTrailBlank (truncAt (linesKeepNl content))
          else dropTrailBlank (truncAt (linesKeepNl content)) ++ ['\n' :: t]).flatten = true
      rw [h, if_neg (by simp)]
      rw [List.flatten_append]
      apply subStr_append_right
      have hfl : ([('\n' :: t)] : List Str).flatten = '\n' :: t := by simp
      rw [hfl]
      exact subStr_cons_of sec '\n' t hsub

/-- Witness for c7_amended at the markerless content abc with templates xyz
    and Self checklist. -/
theorem c7_witness :
    cleanFile (str "abc") (some (str "xyz")) =
      (dropTrailBlank (truncAt (linesKeepNl (str "abc")))).flatten ++ '\n' :: str "xyz" ∧
    ∃ sec2 ∈ tplSections,
      subStr sec2 (cleanFile (str "abc") (some (str "Self checklist"))) = true :=
  ⟨c7_amended.1 (str "abc") (str "xyz") (by decide),
   c7_amended.2 (str "abc") (str "Self checklist") (str "Self checklist")
     (by decide) (by decide)⟩

/-! ## Idempotence of the client pipeline without a template -/

theorem linesKeepNl_cons_nl (rest : Str) :
    linesKeepNl ('\n' :: rest) = ['\n'] :: linesKeepNl rest := by
  simp [linesKeepNl]

theorem linesKeepNl_cons_ne (c : Char) (rest : Str) (hc : c ≠ '\n') (l : Str)
    (ls : List Str) (h : linesKeepNl rest = l :: ls) :
    linesKeepNl (c :: rest) = (c :: l) :: ls := by
  simp [linesKeepNl, hc, h]

theorem linesKeepNl_ne_nil : ∀ s : Str, s ≠ [] → linesKeepNl s ≠ [] := by
  intro s hs
  cases s with
  | nil => exact absurd rfl hs
  | cons c rest =>
    by_cases hc : c = '\n'
    · subst hc; rw [linesKeepNl_cons_nl]; simp
    · simp only [linesKeepNl, hc, if_false]
      cases hsp : linesKeepNl rest <;> simp

theorem linesKeepNl_flatten : ∀ s : Str, (linesKeepNl s).flatten = s := by
  intro s
  induction s with
  | nil => simp [linesKeepNl]
  | cons c rest ih =>
    by_cases hc : c = '\n'
    · subst hc
      rw [linesKeepNl_cons_nl]
      simp only [List.flatten_cons]
      rw [ih]
      simp
    · cases hsp : linesKeepNl rest with
      | nil =>
        have hrest : rest = [] := by
          by_contra hne
          exact linesKeepNl_ne_nil rest hne hsp
        subst hrest
        simp [linesKeepNl, hc]
      | cons l ls =>
        rw [linesKeepNl_cons_ne c rest hc l ls hsp]
        simp only [List.flatten_cons, List.cons_append]
        rw [← List.flatten_cons, ← hsp, ih]

theorem dropLast_cons_ne_nil {α : Type} (c : α) (l : List α) (h : l ≠ []) :
    (c :: l).dropLast = c :: l.dropLast := by
  rw [show (c :: l : List α) = [c] ++ l from rfl, List.dropLast_append_of_ne_nil [c] h]
  rfl

theorem goodLines_single (l : Str) :
    goodLines [l] = (!l.isEmpty && !l.dropLast.contains '\n') := rfl

theorem goodLines_cons₂ (l l2 : Str) (ls : List Str) :
    goodLines (l :: l2 :: ls) =
      (!l.isEmpty && !l.dropLast.contains '\n' &&
        decide (l.getLast? = some '\n') && goodLines (l2 :: ls)) := rfl

theorem linesKeepNl_good : ∀ s : Str, goodLines (linesKeepNl s) = true := by
  intro s
  induction s with
  | nil => rfl
  | cons c rest ih =>
    by_cases hc : c = '\n'
    · subst hc
      rw [linesKeepNl_cons_nl]
      cases hsp : linesKeepNl rest with
      | nil => decide
      | cons l ls =>
        rw [goodLines_cons₂]
        rw [hsp] at ih
        simp [ih]
    · cases hsp : linesKeepNl rest with
      | nil =>
        have hrest : rest = [] := by
          by_contra hne
          exact linesKeepNl_ne_nil rest hne hsp
        subst hrest
        simp [linesKeepNl, hc, goodLines]
      | cons l ls =>
        rw [linesKeepNl_cons_ne c rest hc l ls hsp]
        rw [hsp] at ih
        cases ls with
        | nil =>
          rw [goodLines_single] at ih ⊢
          simp only [Bool.and_eq_true, Bool.not_eq_true'] at ih ⊢
          have hl : l ≠ [] := by
            intro h0
            rw [h0] at ih
            simp at ih
          constructor
          · simp
          · rw [dropLast_cons_ne_nil c l hl, List.contains_cons]
            simp only [Bool.or_eq_false_iff]
            exact ⟨by simpa using Ne.symm hc, ih.2⟩
        | cons l2 ls2 =>
          rw [goodLines_cons₂] at ih ⊢
          simp only [Bool.and_eq_true, Bool.not_eq_true', decide_eq_true_eq] at ih ⊢
          obtain ⟨⟨⟨hne, hnl⟩, hlast⟩, hrest2⟩ := ih
          have hl : l ≠ [] := by
            intro h0
            rw [h0] at hlast
            simp at hlast
          refine ⟨⟨⟨by simp, ?_⟩, ?_⟩, hrest2⟩
          · rw [dropLast_cons_ne_nil c l hl, List.contains_cons]
            simp only [Bool.or_eq_false_iff]
            exact ⟨by simpa using Ne.symm hc, hnl⟩
          · rw [show (c :: l : Str) = [c] ++ l from rfl]
            rw [getLast?_append_ne [c] l hl]
            exact hlast

theorem goodLines_of_pre : ∀ L2 L : List Str, L2 <+: L → goodLines L = true →
    goodLines L2 = true := by
  intro L2
  induction L2 with
  | nil => intro L _ _; rfl
  | cons x xs ih =>
    intro L hpre hg
    obtain ⟨t, ht⟩ := hpre
    subst ht
    cases xs with
    | nil =>
      cases t with
      | nil => simpa using hg
      | cons t1 t2 =>
        rw [show ([x] ++ t1 :: t2 : List Str) = x :: t1 :: t2 from rfl] at hg
        rw [goodLines_cons₂] at hg
        rw [goodLines_single]
        simp only [Bool.and_eq_true] at hg ⊢
        exact ⟨hg.1.1.1, hg.1.1.2⟩
    | cons x2 xs2 =>
      rw [show ((x :: x2 :: xs2) ++ t : List Str) = x :: x2 :: (xs2 ++ t) from rfl] at hg
      rw [goodLines_cons₂] at hg
      rw [goodLines_cons₂]
      simp only [Bool.and_eq_true] at hg ⊢
      refine ⟨hg.1, ?_⟩
      exact ih (x2 :: (xs2 ++ t)) ⟨t, by simp⟩ hg.2

theorem linesKeepNl_single : ∀ l : Str, l ≠ [] → l.dropLast.contains '\n' = false →
    linesKeepNl l = [l] := by
  intro l
  induction l with
  | nil => intro h _; exact absurd rfl h
  | cons c rest ih =>
    intro _ hnl
    cases rest with
    | nil =>
      by_cases hc : c = '\n'
      · subst hc; rfl
      · simp [linesKeepNl, hc]
    | cons c2 rest2 =>
      rw [List.dropLast_cons₂, List.contains_cons, Bool.or_eq_false_iff] at hnl
      have hc : c ≠ '\n' := Ne.symm (by simpa using hnl.1)
      have hr := ih (by simp) hnl.2
      rw [linesKeepNl_cons_ne c _ hc _ [] hr]

theorem linesKeepNl_append_nl : ∀ body z : Str, body.contains '\n' = false →
    linesKeepNl (body ++ '\n' :: z) = (body ++ ['\n']) :: linesKeepNl z := by
  intro body
  induction body with
  | nil =>
    intro z _
    rw [List.nil_append, linesKeepNl_cons_nl]
    rfl
  | cons c b2 ih =>
    intro z h
    rw [List.contains_cons, Bool.or_eq_false_iff] at h
    have hc : c ≠ '\n' := Ne.symm (by simpa using h.1)
    have h2 := ih z h.2
    rw [List.cons_append, linesKeepNl_cons_ne c _ hc _ _ h2, List.cons_append]

theorem linesKeepNl_of_flatten : ∀ L : List Str, goodLines L = true →
    linesKeepNl L.flatten = L := by
  intro L
  induction L with
  | nil => intro _; rfl
  | cons l ls ih =>
    intro hg
    cases ls with
    | nil =>
      rw [goodLines_single] at hg
      simp only [Bool.and_eq_true, Bool.not_eq_true'] at hg
      simp only [List.flatten_cons, List.flatten_nil, List.append_nil]
      refine linesKeepNl_single l ?_ hg.2
      intro h0
      rw [h0] at hg
      simp at hg
    | cons l2 ls2 =>
      rw [goodLines_cons₂] at hg
      simp only [Bool.and_eq_true, Bool.not_eq_true', decide_eq_true_eq] at hg
      obtain ⟨⟨⟨hne, hnl⟩, hlast⟩, hrest⟩ := hg
      have hlne : l ≠ [] := by
        intro h0
        rw [h0] at hlast
        simp at hlast
      have hget : l.getLast hlne = '\n' := by
        have := List.getLast?_eq_getLast l hlne
        rw [hlast] at this
        exact (Option.some.injEq _ _).mp this.symm
      have hdecomp : l = l.dropLast ++ ['\n'] := by
        conv_lhs => rw [← List.dropLast_append_getLast hlne]
        rw [hget]
      have hflat : (l :: l2 :: ls2).flatten =
          l.dropLast ++ '\n' :: (l2 :: ls2).flatten := by
        rw [List.flatten_cons]
        conv_lhs => rw [hdecomp]
        simp
      rw [hflat]
      have hdnl : l.dropLast.contains '\n' = false := hnl
      rw [linesKeepNl_append_nl _ _ hdnl]
      rw [ih hrest]
      rw [← hdecomp]

theorem truncAt_all_keep (L : List Str) (h : ∀ l ∈ L, forbiddenLine l = false) :
    truncAt L = L := by
  rw [truncAt_eq_takeWhile]
  exact List.takeWhile_eq_self_iff.mpr (fun x hx => by rw [h x hx]; rfl)

theorem dropWhile_idem {α : Type} (P : α → Bool) :
    ∀ l : List α, (l.dropWhile P).dropWhile P = l.dropWhile P := by
  intro l
  induction l with
  | nil => rfl
  | cons a l ih =>
    by_cases h : P a = true
    · rw [List.dropWhile_cons_of_pos h, ih]
    · rw [List.dropWhile_cons_of_neg h, List.dropWhile_cons_of_neg h]

theorem dropTrailBlank_idem (L : List Str) :
    dropTrailBlank (dropTrailBlank L) = dropTrailBlank L := by
  simp only [dropTrailBlank, List.reverse_reverse]
  rw [dropWhile_idem]

theorem cleanFile_none (s : Str) :
    cleanFile s none = (dropTrailBlank (truncAt (linesKeepNl s))).flatten := rfl

theorem cleanFile_none_idem (content : Str) :
    cleanFile (cleanFile content none) none = cleanFile content none := by
  rw [cleanFile_none, cleanFile_none]
  have hpre : dropTrailBlank (truncAt (linesKeepNl content)) <+: linesKeepNl content := by
    refine (dropTrailBlank_isPre _).trans ?_
    rw [truncAt_eq_takeWhile]
    exact List.takeWhile_prefix _
  have hgood : goodLines (dropTrailBlank (truncAt (linesKeepNl content))) = true :=
    goodLines_of_pre _ _ hpre (linesKeepNl_good content)
  rw [linesKeepNl_of_flatten _ hgood]
  have hkeep : ∀ l ∈ dropTrailBlank (truncAt (linesKeepNl content)),
      forbiddenLine l = false := by
    intro l hl
    have hl2 : l ∈ truncAt (linesKeepNl content) :=
      (dropTrailBlank_isPre _).subset hl
    rw [truncAt_eq_takeWhile] at hl2
    have := List.mem_takeWhile_imp hl2
    simpa using this
  rw [truncAt_all_keep _ hkeep]
  rw [dropTrailBlank_idem]

/-! ## Idempotence of the server pipeline: strip lemmas -/

theorem lTrim_nil : lTrim [] = [] := rfl

theorem lTrim_cons_ws (c : Char) (l : Str) (h : pyWs c = true) :
    lTrim (c :: l) = lTrim l := List.dropWhile_cons_of_pos h

theorem lTrim_cons_not_ws (c : Char) (l : Str) (h : pyWs c = false) :
    lTrim (c :: l) = c :: l := List.dropWhile_cons_of_neg (by simp [h])

theorem lTrim_idem (s : Str) : lTrim (lTrim s) = lTrim s := dropWhile_idem pyWs s

theorem rTrim_idem (s : Str) : rTrim (rTrim s) = rTrim s := by
  simp only [rTrim, List.reverse_reverse]
  rw [dropWhile_idem]

theorem rTrim_snoc_ws (l : Str) (c : Char) (h : pyWs c = true) :
    rTrim (l ++ [c]) = rTrim l := by
  simp only [rTrim, List.reverse_append, List.reverse_singleton, List.singleton_append]
  rw [List.dropWhile_cons_of_pos h]

theorem rTrim_snoc_not_ws (l : Str) (c : Char) (h : pyWs c = false) :
    rTrim (l ++ [c]) = l ++ [c] := by
  simp only [rTrim, List.reverse_append, List.reverse_singleton, List.singleton_append]
  rw [List.dropWhile_cons_of_neg (by simp [h])]
  simp

theorem lTrim_suffix_of (s : Str) : lTrim s <:+ s := List.dropWhile_suffix pyWs

theorem rTrim_prefix_of (s : Str) : rTrim s <+: s := by
  have h : s.reverse.dropWhile pyWs <:+ s.reverse := List.dropWhile_suffix pyWs
  have h2 := List.reverse_prefix.mpr h
  rw [List.reverse_reverse] at h2
  exact h2

theorem lTrim_append_of_nil (l x : Str) (h : lTrim l = []) : lTrim (l ++ x) = lTrim x := by
  induction l with
  | nil => rfl
  | cons c l2 ih =>
    by_cases hc : pyWs c = true
    · rw [lTrim_cons_ws c l2 hc] at h
      rw [List.cons_append, lTrim_cons_ws c _ hc]
      exact ih h
    · rw [lTrim_cons_not_ws c l2 (by simpa using hc)] at h
      exact absurd h (by simp)

theorem lTrim_append_of_ne_nil (l x : Str) (h : lTrim l ≠ []) :
    lTrim (l ++ x) = lTrim l ++ x := by
  induction l with
  | nil => exact absurd rfl h
  | cons c l2 ih =>
    by_cases hc : pyWs c = true
    · rw [lTrim_cons_ws c l2 hc] at h
      rw [List.cons_append, lTrim_cons_ws c _ hc, lTrim_cons_ws c l2 hc]
      exact ih h
    · have hcf : pyWs c = false := by simpa using hc
      rw [lTrim_cons_not_ws c l2 hcf]
      rw [List.cons_append, lTrim_cons_not_ws c _ hcf]

theorem pyStrip_cons_ws (c : Char) (l : Str) (h : pyWs c = true) :
    pyStrip (c :: l) = pyStrip l := by
  simp only [pyStrip]
  rw [lTrim_cons_ws c l h]

theorem pyStrip_snoc_ws (l : Str) (c : Char) (h : pyWs c = true) :
    pyStrip (l ++ [c]) = pyStrip l := by
  simp only [pyStrip]
  by_cases hn : lTrim l = []
  · rw [lTrim_append_of_nil l [c] hn, hn]
    rw [show lTrim [c] = lTrim [] from lTrim_cons_ws c [] h, lTrim_nil]
  · rw [lTrim_append_of_ne_nil l [c] hn]
    exact rTrim_snoc_ws _ c h

theorem lTrim_head_not_ws : ∀ s : Str,
    lTrim s = [] ∨ ∃ c rest, lTrim s = c :: rest ∧ pyWs c = false := by
  intro s
  induction s with
  | nil => left; rfl
  | cons c rest ih =>
    by_cases hc : pyWs c = true
    · rw [lTrim_cons_ws c rest hc]; exact ih
    · right
      have hcf : pyWs c = false := by simpa using hc
      exact ⟨c, rest, lTrim_cons_not_ws c rest hcf, hcf⟩

theorem pyStrip_idem (s : Str) : pyStrip (pyStrip s) = pyStrip s := by
  have key : lTrim (rTrim (lTrim s)) = rTrim (lTrim s) := by
    rcases lTrim_head_not_ws s with h | ⟨c, rest, heq, hws⟩
    · rw [h]; rfl
    · cases hr : rTrim (c :: rest) with
      | nil => rw [heq, hr]; rfl
      | cons d t =>
        have hpre := rTrim_prefix_of (c :: rest)
        rw [hr] at hpre
        obtain ⟨u, hu⟩ := hpre
        simp only [List.cons_append] at hu
        have hd : d = c := (List.cons.injEq d _ c _).mp hu |>.1
        subst hd
        rw [heq, hr]
        exact lTrim_cons_not_ws d t hws
  show rTrim (lTrim (rTrim (lTrim s))) = rTrim (lTrim s)
  rw [key, rTrim_idem]

/-! ## Idempotence of the server pipeline: line structure under the strips -/

theorem splitOnNl_snoc_nl : ∀ x : Str, splitOnNl (x ++ ['\n']) = splitOnNl x ++ [[]] := by
  intro x
  induction x with
  | nil =>
    rw [List.nil_append, splitOnNl_cons_nl]
    rfl
  | cons c x2 ih =>
    by_cases hc : c = '\n'
    · subst hc
      rw [List.cons_append, splitOnNl_cons_nl, splitOnNl_cons_nl, ih]
      rfl
    · cases hsp : splitOnNl x2 with
      | nil => exact absurd hsp (splitOnNl_ne_nil x2)
      | cons l ls =>
        rw [List.cons_append,
          splitOnNl_cons c _ hc l (ls ++ [[]]) (by rw [ih, hsp]; rfl)]
        rw [splitOnNl_cons c x2 hc l ls hsp]
        rfl

theorem splitOnNl_snoc : ∀ (x : Str) (c : Char), c ≠ '\n' →
    splitOnNl (x ++ [c]) =
      (splitOnNl x).dropLast ++ [((splitOnNl x).getLast?.getD []) ++ [c]] := by
  intro x
  induction x with
  | nil =>
    intro c hc
    rw [List.nil_append,
      splitOnNl_single [c] (by intro hm; exact hc (List.mem_singleton.mp hm).symm)]
    rfl
  | cons d x2 ih =>
    intro c hc
    by_cases hd : d = '\n'
    · subst hd
      cases hL : splitOnNl x2 with
      | nil => exact absurd hL (splitOnNl_ne_nil x2)
      | cons l0 ls0 =>
        rw [List.cons_append, splitOnNl_cons_nl, ih c hc, splitOnNl_cons_nl, hL]
        rw [dropLast_cons_ne_nil _ (l0 :: ls0) (by simp)]
        rw [show ([] :: l0 :: ls0 : List Str).getLast? = (l0 :: ls0).getLast? from
          getLast?_append_ne [[]] (l0 :: ls0) (by simp)]
        rfl
    · cases hL : splitOnNl x2 with
      | nil => exact absurd hL (splitOnNl_ne_nil x2)
      | cons l0 ls0 =>
        have hsnoc := ih c hc
        rw [hL] at hsnoc
        rw [List.cons_append]
        cases ls0 with
        | nil =>
          rw [splitOnNl_cons d _ hd (l0 ++ [c]) [] (by simpa using hsnoc)]
          rw [splitOnNl_cons d x2 hd l0 [] hL]
          rfl
        | cons l1 ls1 =>
          have hsnoc2 : splitOnNl (x2 ++ [c]) =
              l0 :: ((l1 :: ls1).dropLast ++ [(((l1 :: ls1).getLast?).getD []) ++ [c]]) := by
            rw [hsnoc, dropLast_cons_ne_nil l0 (l1 :: ls1) (by simp)]
            rw [show (l0 :: l1 :: ls1 : List Str).getLast? = (l1 :: ls1).getLast? from
              getLast?_append_ne [l0] (l1 :: ls1) (by simp)]
            rfl
          rw [splitOnNl_cons d _ hd _ _ hsnoc2]
          rw [splitOnNl_cons d x2 hd l0 (l1 :: ls1) hL]
          rw [dropLast_cons_ne_nil (d :: l0) (l1 :: ls1) (by simp)]
          rw [show ((d :: l0) :: l1 :: ls1 : List Str).getLast? = (l1 :: ls1).getLast? from
            getLast?_append_ne [d :: l0] (l1 :: ls1) (by simp)]
          rfl

theorem allLines_lTrim (G : Str → Bool)
    (hG1 : ∀ c l, pyWs c = true → G (c :: l) = true → G l = true) :
    ∀ s : Str, (∀ l ∈ splitOnNl s, G l = true) →
      ∀ l ∈ splitOnNl (lTrim s), G l = true := by
  intro s
  induction s with
  | nil => intro h; simpa using h
  | cons c rest ih =>
    intro h
    by_cases hc : pyWs c = true
    · rw [lTrim_cons_ws c rest hc]
      refine ih ?_
      intro l hl
      by_cases hnl : c = '\n'
      · subst hnl
        exact h l (by rw [splitOnNl_cons_nl]; exact List.mem_cons_of_mem _ hl)
      · cases hsp : splitOnNl rest with
        | nil => exact absurd hsp (splitOnNl_ne_nil rest)
        | cons l0 ls0 =>
          rw [hsp] at hl
          rcases List.mem_cons.mp hl with rfl | hmem
          · have hh := h (c :: l)
              (by rw [splitOnNl_cons c rest hnl l ls0 hsp]; exact List.mem_cons_self _ _)
            exact hG1 c l hc hh
          · exact h l
              (by rw [splitOnNl_cons c rest hnl l0 ls0 hsp]; exact List.mem_cons_of_mem _ hmem)
    · rw [lTrim_cons_not_ws c rest (by simpa using hc)]
      exact h

theorem allLines_rTrim (G : Str → Bool)
    (hG2 : ∀ l c, pyWs c = true → G (l ++ [c]) = true → G l = true) :
    ∀ s : Str, (∀ l ∈ splitOnNl s, G l = true) →
      ∀ l ∈ splitOnNl (rTrim s), G l = true := by
  intro s
  induction s using List.reverseRecOn with
  | nil => intro h; simpa using h
  | append_singleton x c ih =>
    intro h
    by_cases hc : pyWs c = true
    · rw [rTrim_snoc_ws x c hc]
      refine ih ?_
      intro l hl
      by_cases hnl : c = '\n'
      · subst hnl
        exact h l (by rw [splitOnNl_snoc_nl x]; exact List.mem_append_left _ hl)
      · have hsnoc := splitOnNl_snoc x c hnl
        have hxne := splitOnNl_ne_nil x
        have hdecomp : splitOnNl x = (splitOnNl x).dropLast ++ [(splitOnNl x).getLast hxne] :=
          (List.dropLast_append_getLast hxne).symm
        rw [hdecomp] at hl
        rcases List.mem_append.mp hl with hmem | hlast
        · exact h l (by rw [hsnoc]; exact List.mem_append_left _ hmem)
        · have hleq : l = (splitOnNl x).getLast hxne := List.mem_singleton.mp hlast
          have hget : (splitOnNl x).getLast?.getD [] = l := by
            rw [List.getLast?_eq_getLast _ hxne, hleq]
            rfl
          have hh := h (l ++ [c]) (by
            rw [hsnoc, hget]
            exact List.mem_append_right _ (List.mem_singleton.mpr rfl))
          exact hG2 l c hc hh
    · rw [rTrim_snoc_not_ws x c (by simpa using hc)]
      exact h

/-! ## Idempotence of the server pipeline: the newline collapse -/

theorem collapseAux_nil (n : Nat) : collapseAux n [] = List.replicate (min n 2) '\n' := rfl

theorem collapseAux_cons_nl (n : Nat) (rest : Str) :
    collapseAux n ('\n' :: rest) = collapseAux (n + 1) rest := by
  show (if ('\n' : Char) = '\n' then collapseAux (n + 1) rest
        else List.replicate (min n 2) '\n' ++ '\n' :: collapseAux 0 rest) = _
  rw [if_pos rfl]

theorem collapseAux_cons_ne (n : Nat) (c : Char) (rest : Str) (hc : c ≠ '\n') :
    collapseAux n (c :: rest) = List.replicate (min n 2) '\n' ++ c :: collapseAux 0 rest := by
  show (if c = '\n' then collapseAux (n + 1) rest
        else List.replicate (min n 2) '\n' ++ c :: collapseAux 0 rest) = _
  rw [if_neg hc]

theorem splitOnNl_replicate : ∀ k : Nat,
    splitOnNl (List.replicate k '\n') = List.replicate (k + 1) [] := by
  intro k
  induction k with
  | zero => rfl
  | succ n ih =>
    rw [List.replicate_succ, splitOnNl_cons_nl, ih]
    rfl

theorem splitOnNl_rep_append : ∀ (k : Nat) (y : Str),
    splitOnNl (List.replicate k '\n' ++ y) = List.replicate k [] ++ splitOnNl y := by
  intro k
  induction k with
  | zero => intro y; rfl
  | succ n ih =>
    intro y
    rw [List.replicate_succ, List.cons_append, splitOnNl_cons_nl, ih]
    rfl

theorem collapseAux_head_zero : ∀ s : Str,
    (splitOnNl (collapseAux 0 s)).head? = (splitOnNl s).head? := by
  intro s
  induction s with
  | nil => rfl
  | cons c rest ih =>
    by_cases hc : c = '\n'
    · subst hc
      rw [collapseAux_cons_nl, splitOnNl_cons_nl]
      have hpos : ∀ (t : Str) (n : Nat), 1 ≤ n →
          (splitOnNl (collapseAux n t)).head? = some [] := by
        intro t
        induction t with
        | nil =>
          intro n _
          rw [collapseAux_nil, splitOnNl_replicate, List.replicate_succ]
          rfl
        | cons d t2 iht =>
          intro n hn
          by_cases hd : d = '\n'
          · subst hd
            rw [collapseAux_cons_nl]
            exact iht (n + 1) (by omega)
          · rw [collapseAux_cons_ne n d t2 hd, splitOnNl_rep_append]
            have hm : 1 ≤ min n 2 := by omega
            cases hmm : min n 2 with
            | zero => omega
            | succ m =>
              rw [List.replicate_succ]
              rfl
      rw [hpos rest 1 (by omega)]
      rfl
    · rw [collapseAux_cons_ne 0 c rest hc]
      rw [show (List.replicate (min 0 2) '\n' ++ c :: collapseAux 0 rest : Str) =
        c :: collapseAux 0 rest from rfl]
      cases hz : splitOnNl (collapseAux 0 rest) with
      | nil => exact absurd hz (splitOnNl_ne_nil _)
      | cons hz0 tz =>
        cases h0 : splitOnNl rest with
        | nil => exact absurd h0 (splitOnNl_ne_nil _)
        | cons h00 t0 =>
          rw [splitOnNl_cons c _ hc hz0 tz hz, splitOnNl_cons c rest hc h00 t0 h0]
          rw [hz, h0] at ih
          simp only [List.head?_cons, Option.some.injEq] at ih ⊢
          rw [ih]

theorem collapseAux_head_pos : ∀ (s : Str) (n : Nat), 1 ≤ n →
    (splitOnNl (collapseAux n s)).head? = some [] := by
  intro s
  induction s with
  | nil =>
    intro n _
    rw [collapseAux_nil, splitOnNl_replicate, List.replicate_succ]
    rfl
  | cons c rest ih =>
    intro n hn
    by_cases hc : c = '\n'
    · subst hc
      rw [collapseAux_cons_nl]
      exact ih (n + 1) (by omega)
    · rw [collapseAux_cons_ne n c rest hc, splitOnNl_rep_append]
      have hm : 1 ≤ min n 2 := by omega
      cases hmm : min n 2 with
      | zero => omega
      | succ m =>
        rw [List.replicate_succ]
        rfl

theorem collapseAux_tail : ∀ (s : Str) (n : Nat),
    ∀ l ∈ (splitOnNl (collapseAux n s)).tail,
      l = [] ∨ l ∈ (splitOnNl s).tail ∨ (1 ≤ n ∧ l ∈ splitOnNl s) := by
  intro s
  induction s with
  | nil =>
    intro n l hl
    left
    rw [collapseAux_nil, splitOnNl_replicate, List.replicate_succ, List.tail_cons] at hl
    exact List.eq_of_mem_replicate hl
  | cons c rest ih =>
    intro n l hl
    by_cases hc : c = '\n'
    · subst hc
      rw [collapseAux_cons_nl] at hl
      rcases ih (n + 1) l hl with h | h | h
      · exact Or.inl h
      · right; left
        rw [splitOnNl_cons_nl, List.tail_cons]
        exact List.mem_of_mem_tail h
      · right; left
        rw [splitOnNl_cons_nl, List.tail_cons]
        exact h.2
    · rw [collapseAux_cons_ne n c rest hc, splitOnNl_rep_append] at hl
      cases hz : splitOnNl (collapseAux 0 rest) with
      | nil => exact absurd hz (splitOnNl_ne_nil _)
      | cons hz0 tz =>
        rw [splitOnNl_cons c _ hc hz0 tz hz] at hl
        cases h0 : splitOnNl rest with
        | nil => exact absurd h0 (splitOnNl_ne_nil _)
        | cons h00 t0 =>
          cases hmm : min n 2 with
          | zero =>
            rw [hmm, List.replicate_zero, List.nil_append, List.tail_cons] at hl
            have htz : l ∈ (splitOnNl (collapseAux 0 rest)).tail := by
              rw [hz, List.tail_cons]
              exact hl
            rcases ih 0 l htz with h | h | h
            · exact Or.inl h
            · right; left
              rw [splitOnNl_cons c rest hc h00 t0 h0, List.tail_cons]
              rw [h0, List.tail_cons] at h
              exact h
            · exact absurd h.1 (by omega)
          | succ m =>
            rw [hmm, List.replicate_succ, List.cons_append, List.tail_cons] at hl
            have hn1 : 1 ≤ n := by omega
            rcases List.mem_append.mp hl with hrep | hcons
            · exact Or.inl (List.eq_of_mem_replicate hrep)
            · rcases List.mem_cons.mp hcons with rfl | hmem
              · right; right
                refine ⟨hn1, ?_⟩
                have hhead := collapseAux_head_zero rest
                rw [hz, h0] at hhead
                simp only [List.head?_cons, Option.some.injEq] at hhead
                rw [splitOnNl_cons c rest hc h00 t0 h0, hhead]
                exact List.mem_cons_self _ _
              · have htz : l ∈ (splitOnNl (collapseAux 0 rest)).tail := by
                  rw [hz, List.tail_cons]
                  exact hmem
                rcases ih 0 l htz with h | h | h
                · exact Or.inl h
                · right; right
                  refine ⟨hn1, ?_⟩
                  rw [splitOnNl_cons c rest hc h00 t0 h0]
                  rw [h0, List.tail_cons] at h
                  exact List.mem_cons_of_mem _ h
                · exact absurd h.1 (by omega)

theorem collapse_lines_sub (s : Str) : ∀ l ∈ splitOnNl (collapse s),
    l = [] ∨ l ∈ splitOnNl s := by
  intro l hl
  rw [show collapse s = collapseAux 0 s from rfl] at hl
  cases hz : splitOnNl (collapseAux 0 s) with
  | nil => exact absurd hz (splitOnNl_ne_nil _)
  | cons z0 zs =>
    rw [hz] at hl
    rcases List.mem_cons.mp hl with rfl | hmem
    · right
      have hhead := collapseAux_head_zero s
      rw [hz] at hhead
      cases h0 : splitOnNl s with
      | nil => exact absurd h0 (splitOnNl_ne_nil _)
      | cons s0 t0 =>
        rw [h0] at hhead
        simp only [List.head?_cons, Option.some.injEq] at hhead
        rw [hhead]
        exact List.mem_cons_self _ _
    · have htail : l ∈ (splitOnNl (collapseAux 0 s)).tail := by
        rw [hz, List.tail_cons]
        exact hmem
      rcases collapseAux_tail s 0 l htail with h | h | h
      · exact Or.inl h
      · exact Or.inr (List.mem_of_mem_tail h)
      · exact absurd h.1 (by omega)

theorem countOcc_short (p s : Str) (h : s.length < p.length) : countOcc p s = 0 := by
  rw [countOcc_zero_iff]
  intro i
  by_contra hc
  rw [Bool.not_eq_false] at hc
  have hlen := hasPre_len p _ hc
  rw [List.length_drop] at hlen
  omega

theorem collapseAux_no3 : ∀ (s : Str) (n : Nat),
    countOcc (str "\n\n\n") (collapseAux n s) = 0 := by
  intro s
  induction s with
  | nil =>
    intro n
    rw [collapseAux_nil]
    refine countOcc_short _ _ ?_
    rw [List.length_replicate]
    show min n 2 < (str "\n\n\n").length
    have : (str "\n\n\n").length = 3 := rfl
    omega
  | cons c rest ih =>
    intro n
    by_cases hc : c = '\n'
    · subst hc
      rw [collapseAux_cons_nl]
      exact ih (n + 1)
    · rw [collapseAux_cons_ne n c rest hc]
      rw [countOcc_split_char (str "\n\n\n") (by simp [str]) c (by simp [str, hc])]
      rw [ih 0]
      rw [countOcc_short _ _ (by
        rw [List.length_replicate]
        have : (str "\n\n\n").length = 3 := rfl
        omega)]

theorem collapseAux_fix : ∀ (s : Str) (n : Nat), n ≤ 2 →
    countOcc (str "\n\n\n") (List.replicate n '\n' ++ s) = 0 →
    collapseAux n s = List.replicate (min n 2) '\n' ++ s := by
  intro s
  induction s with
  | nil =>
    intro n _ _
    rw [collapseAux_nil, List.append_nil]
  | cons c rest ih =>
    intro n hn hcnt
    by_cases hc : c = '\n'
    · subst hc
      rw [collapseAux_cons_nl]
      by_cases hn2 : n + 1 ≤ 2
      · have hpush : countOcc (str "\n\n\n") (List.replicate (n + 1) '\n' ++ rest) = 0 := by
          rw [List.replicate_succ', List.append_assoc]
          exact hcnt
        rw [ih (n + 1) hn2 hpush]
        have h1 : min (n + 1) 2 = n + 1 := by omega
        have h2 : min n 2 = n := by omega
        rw [h1, h2, List.replicate_succ', List.append_assoc]
        rfl
      · exfalso
        have hn3 : n = 2 := by omega
        subst hn3
        have hhp : hasPre (str "\n\n\n")
            ((List.replicate 2 '\n' ++ '\n' :: rest).drop 0) = true := by
          rw [List.drop_zero]
          show hasPre (str "\n\n\n") ('\n' :: '\n' :: '\n' :: rest) = true
          rw [hasPre_iff]
          exact ⟨rest, rfl⟩
        have hpos := countOcc_pos_of (str "\n\n\n") _ 0 (by simp [str]) hhp
        omega
    · rw [collapseAux_cons_ne n c rest hc]
      rw [countOcc_split_char (str "\n\n\n") (by simp [str]) c (by simp [str, hc])] at hcnt
      have hrest : countOcc (str "\n\n\n") rest = 0 := by omega
      have h0 := ih 0 (by omega) (by simpa using hrest)
      rw [h0]
      rfl

theorem collapse_no3 (s : Str) : countOcc (str "\n\n\n") (collapse s) = 0 :=
  collapseAux_no3 s 0

theorem collapse_fix (s : Str) (h : countOcc (str "\n\n\n") s = 0) : collapse s = s := by
  have hfix := collapseAux_fix s 0 (by omega) (by simpa using h)
  simpa using hfix

theorem subStr_of_pre (p x y : Str) (h : x <+: y) (hs : subStr p x = true) :
    subStr p y = true := by
  obtain ⟨t, rfl⟩ := h
  exact subStr_append_left p x t hs

theorem subStr_of_suf (p x y : Str) (h : x <:+ y) (hs : subStr p x = true) :
    subStr p y = true := by
  obtain ⟨t, rfl⟩ := h
  exact subStr_append_right p t x hs

theorem pyStrip_no3 (z : Str) (h : countOcc (str "\n\n\n") z = 0) :
    countOcc (str "\n\n\n") (pyStrip z) = 0 := by
  by_contra hc
  have hpos : 0 < countOcc (str "\n\n\n") (pyStrip z) := Nat.pos_of_ne_zero hc
  have h1 : subStr (str "\n\n\n") (pyStrip z) = true := by
    rw [subStr_iff]
    exact hpos
  have h2 : subStr (str "\n\n\n") (lTrim z) = true :=
    subStr_of_pre _ _ _ (rTrim_prefix_of (lTrim z)) h1
  have h3 : subStr (str "\n\n\n") z = true :=
    subStr_of_suf _ _ _ (lTrim_suffix_of z) h2
  rw [subStr_iff, h] at h3
  omega

/-! ## Idempotence of the server pipeline: assembly -/

theorem serverForbidden_cons (c : Char) (l : Str) (h : serverForbidden l = true) :
    serverForbidden (c :: l) = true := by
  simp only [serverForbidden, subStrCI, lower, List.map_cons, Bool.or_eq_true] at h ⊢
  rcases h with (h | h) | h
  · exact Or.inl (Or.inl (subStr_cons_of _ _ _ h))
  · exact Or.inl (Or.inr (subStr_cons_of _ _ _ h))
  · exact Or.inr (subStr_cons_of _ _ _ h)

theorem serverForbidden_snoc (l : Str) (c : Char) (h : serverForbidden l = true) :
    serverForbidden (l ++ [c]) = true := by
  simp only [serverForbidden, subStrCI, lower, List.map_append, Bool.or_eq_true] at h ⊢
  rcases h with (h | h) | h
  · exact Or.inl (Or.inl (subStr_append_left _ _ _ h))
  · exact Or.inl (Or.inr (subStr_append_left _ _ _ h))
  · exact Or.inr (subStr_append_left _ _ _ h)

theorem joinNl_lines_good (P : Str → Bool) (hP : P [] = true) (L : List Str)
    (hL : ∀ l ∈ L, ('\n' : Char) ∉ l) (hPL : ∀ l ∈ L, P l = true) :
    ∀ l ∈ splitOnNl (joinNl L), P l = true := by
  intro l hl
  cases L with
  | nil =>
    have h1 : joinNl ([] : List Str) = [] := rfl
    have h2 : splitOnNl [] = [[]] := rfl
    rw [h1, h2, List.mem_singleton] at hl
    rw [hl]
    exact hP
  | cons l0 ls0 =>
    rw [splitOnNl_joinNl (l0 :: ls0) (by simp) hL] at hl
    exact hPL l hl

theorem joinNl_keep_good (L : List Str)
    (hNl : ∀ l ∈ L, ('\n' : Char) ∉ l)
    (hL : ∀ l ∈ L, isTplComment (pyStrip l) = false ∧ serverForbidden l = false) :
    ∀ l ∈ splitOnNl (joinNl L),
      isTplComment (pyStrip l) = false ∧ serverForbidden l = false := by
  intro l hl
  have hres := joinNl_lines_good
    (fun x => !isTplComment (pyStrip x) && !serverForbidden x) (by decide) L hNl
    (fun x hx => by
      have h := hL x hx
      simp [h.1, h.2]) l hl
  simp only [Bool.and_eq_true, Bool.not_eq_true'] at hres
  exact hres

theorem pyStrip_lines_good (z : Str)
    (hz : ∀ l ∈ splitOnNl z,
      isTplComment (pyStrip l) = false ∧ serverForbidden l = false) :
    ∀ l ∈ splitOnNl (pyStrip z),
      isTplComment (pyStrip l) = false ∧ serverForbidden l = false := by
  have hg1 : ∀ c l, pyWs c = true →
      (!isTplComment (pyStrip (c :: l)) && !serverForbidden (c :: l)) = true →
      (!isTplComment (pyStrip l) && !serverForbidden l) = true := by
    intro c l hws h
    simp only [Bool.and_eq_true, Bool.not_eq_true'] at h ⊢
    obtain ⟨h1, h2⟩ := h
    refine ⟨?_, ?_⟩
    · rw [← pyStrip_cons_ws c l hws]
      exact h1
    · by_contra hcc
      rw [Bool.not_eq_false] at hcc
      rw [serverForbidden_cons c l hcc] at h2
      exact absurd h2 (by simp)
  have hg2 : ∀ l c, pyWs c = true →
      (!isTplComment (pyStrip (l ++ [c])) && !serverForbidden (l ++ [c])) = true →
      (!isTplComment (pyStrip l) && !serverForbidden l) = true := by
    intro l c hws h
    simp only [Bool.and_eq_true, Bool.not_eq_true'] at h ⊢
    obtain ⟨h1, h2⟩ := h
    refine ⟨?_, ?_⟩
    · rw [← pyStrip_snoc_ws l c hws]
      exact h1
    · by_contra hcc
      rw [Bool.not_eq_false] at hcc
      rw [serverForbidden_snoc l c hcc] at h2
      exact absurd h2 (by simp)
  intro l hl
  have hz2 : ∀ x ∈ splitOnNl z,
      (!isTplComment (pyStrip x) && !serverForbidden x) = true := by
    intro x hx
    have h := hz x hx
    simp [h.1, h.2]
  have hstep1 := allLines_lTrim
    (fun x => !isTplComment (pyStrip x) && !serverForbidden x) hg1 z hz2
  have hstep2 := allLines_rTrim
    (fun x => !isTplComment (pyStrip x) && !serverForbidden x) hg2 (lTrim z) hstep1
  have hres := hstep2 l hl
  simp only [Bool.and_eq_true, Bool.not_eq_true'] at hres
  exact hres

theorem serverSanitize_lines_good (s : Str) :
    ∀ l ∈ splitOnNl (serverSanitize s),
      isTplComment (pyStrip l) = false ∧ serverForbidden l = false := by
  have hclean : ∀ l ∈ (splitOnNl s).filter (fun x => !isTplComment (pyStrip x)),
      isTplComment (pyStrip l) = false ∧ ('\n' : Char) ∉ l := by
    intro l hl
    have hm := List.mem_filter.mp hl
    exact ⟨by simpa using hm.2, splitOnNl_no_nl s l hm.1⟩
  have hlines1 : ∀ l ∈ splitOnNl (joinNl ((splitOnNl s).filter
      (fun x => !isTplComment (pyStrip x)))), isTplComment (pyStrip l) = false := by
    intro l hl
    have hres := joinNl_lines_good (fun x => !isTplComment (pyStrip x)) (by decide) _
      (fun x hx => (hclean x hx).2) (fun x hx => by simp [(hclean x hx).1]) l hl
    simpa using hres
  have hkept : ∀ l ∈ (splitOnNl (joinNl ((splitOnNl s).filter
      (fun x => !isTplComment (pyStrip x))))).takeWhile (fun x => !serverForbidden x),
      (isTplComment (pyStrip l) = false ∧ serverForbidden l = false) ∧
        ('\n' : Char) ∉ l := by
    intro l hl
    have hmem := (List.takeWhile_prefix (fun x => !serverForbidden x)).subset hl
    refine ⟨⟨hlines1 l hmem, by simpa using List.mem_takeWhile_imp hl⟩, ?_⟩
    exact splitOnNl_no_nl _ l hmem
  have hlines2 := joinNl_keep_good _ (fun x hx => (hkept x hx).2)
    (fun x hx => (hkept x hx).1)
  have hlines3 : ∀ l ∈ splitOnNl (collapse (joinNl ((splitOnNl (joinNl
      ((splitOnNl s).filter (fun x => !isTplComment (pyStrip x))))).takeWhile
      (fun x => !serverForbidden x)))),
      isTplComment (pyStrip l) = false ∧ serverForbidden l = false := by
    intro l hl
    rcases collapse_lines_sub _ l hl with h | h
    · subst h
      exact ⟨by decide, by decide⟩
    · exact hlines2 l h
  exact pyStrip_lines_good _ hlines3

theorem serverSanitize_no3 (s : Str) :
    countOcc (str "\n\n\n") (serverSanitize s) = 0 := by
  have h1 := collapse_no3 (joinNl ((splitOnNl (joinNl ((splitOnNl s).filter
      (fun x => !isTplComment (pyStrip x))))).takeWhile (fun x => !serverForbidden x)))
  exact pyStrip_no3 _ h1

theorem serverSanitize_strip_fix (s : Str) :
    pyStrip (serverSanitize s) = serverSanitize s :=
  pyStrip_idem (collapse (joinNl ((splitOnNl (joinNl ((splitOnNl s).filter
    (fun x => !isTplComment (pyStrip x))))).takeWhile (fun x => !serverForbidden x))))

theorem serverSanitize_idem (s : Str) :
    serverSanitize (serverSanitize s) = serverSanitize s := by
  have hA : ∀ l ∈ splitOnNl (serverSanitize s), (!isTplComment (pyStrip l)) = true := by
    intro l hl
    simp [(serverSanitize_lines_good s l hl).1]
  have hB : ∀ l ∈ splitOnNl (serverSanitize s), (!serverForbidden l) = true := by
    intro l hl
    simp [(serverSanitize_lines_good s l hl).2]
  show pyStrip (collapse (joinNl (List.takeWhile (fun x => !serverForbidden x)
    (splitOnNl (joinNl (List.filter (fun x => !isTplComment (pyStrip x))
      (splitOnNl (serverSanitize s)))))))) = serverSanitize s
  rw [List.filter_eq_self.mpr hA]
  rw [joinNl_splitOnNl]
  rw [List.takeWhile_eq_self_iff.mpr hB]
  rw [joinNl_splitOnNl]
  rw [collapse_fix _ (serverSanitize_no3 s)]
  exact serverSanitize_strip_fix s

/-- C8: the claim fails for the client pipeline when a template is supplied:
    the template re-append is not idempotent, because the appended markerless
    template gives the second pass a text still lacking every section label,
    so the template is appended again. -/
theorem c8_counterexample :
    cleanFile (cleanFile (str "abc") (some (str "xyz"))) (some (str "xyz")) ≠
      cleanFile (str "abc") (some (str "xyz")) := by
  decide

/-- C8 amended: the client sanitizer clean_pr_description_file is idempotent
    when no template is supplied, and the server sanitizer of
    generate_pr_description in pr_mpc_server is idempotent on every input:
    no further truncation, comment removal, blank collapsing or stripping
    changes the output on a second pass. -/
theorem c8_amended :
    (∀ content : Str, cleanFile (cleanFile content none) none = cleanFile content none) ∧
    (∀ s : Str, serverSanitize (serverSanitize s) = serverSanitize s) :=
  ⟨cleanFile_none_idem, serverSanitize_idem⟩

end PRGen
